import Mathlib

/-!
Verification of the note-publishing core of the `obsidian-ns-publish` plugin.

The development shallowly embeds the publishing logic of
`src/Source/NoteCopier.ts`, `src/Source/WikilinkParser.ts` and
`src/Source/ExcalidrawUtil.ts`:

* the recursive publish walk `publishNoteRecursively` (shared `visited` /
  `processing` sets, depth bound, per-node error handling) becomes the
  fuel-indexed state-transition function `walkF` on `WalkSt`;
* the wikilink extraction / exclusion / resolution chain `getLinkedFiles`
  becomes `getLinkedFiles` over an abstract link-resolution environment;
* URL generation `generatePublishedUrl` is embedded character-by-character,
  JavaScript strings being modelled as `List Char`;
* the Excalidraw rewrite pass `processNoteContent` (wikilink scan, per-link
  classification, image export with collision-suffixed naming, first-match
  replacement) is embedded over an abstract rendering environment.

External collaborators (the Obsidian vault API, the JavaScript regular
expression engine, the LZ-string decompressor and the Excalidraw renderer)
are modelled as parameters of the corresponding environments; everything the
repository itself computes is translated directly from the source.

JavaScript `Set` insertion is modelled by `setAdd` (append if absent), and
machine peculiarities that the claims depend on — `Set` iteration order,
`||` falsiness of `0`, first-occurrence `String.replace` — are preserved.
-/

/-- JavaScript `Set.add`: append the element if it is not already present. -/
def setAdd (l : List String) (x : String) : List String :=
  if x ∈ l then l else l ++ [x]

/-- JavaScript `String.includes`: `hasSub pat cs` is true iff `pat` occurs
as a contiguous run inside `cs`. -/
def hasSub (pat : List Char) : List Char → Bool
  | [] => pat.isPrefixOf []
  | c :: rest => pat.isPrefixOf (c :: rest) || hasSub pat rest

/-- The JavaScript `\s` character class (whitespace as used by `trim`,
`\s*` and `\s+` in the source's regular expressions). -/
def isJsSpace (c : Char) : Bool :=
  c = ' ' || c = '\t' || c = '\n' || c = '\r' ||
  c.toNat = 11 || c.toNat = 12 || c.toNat = 160 || c.toNat = 0x1680 ||
  (0x2000 ≤ c.toNat && c.toNat ≤ 0x200a) ||
  c.toNat = 0x2028 || c.toNat = 0x2029 || c.toNat = 0x202f ||
  c.toNat = 0x205f || c.toNat = 0x3000 || c.toNat = 0xfeff

/-- JavaScript `String.trim` on a character list. -/
def trimJs (cs : List Char) : List Char :=
  ((cs.dropWhile isJsSpace).reverse.dropWhile isJsSpace).reverse

/-- The mutable result/traversal state threaded through
`publishNoteRecursively`.  `published`, `skipped`, `visited` and
`processing` model the JavaScript `Set`s (insertion-ordered, duplicate
free); `errors` models the error array.  `copies` is a ghost log of every
materialisation (`copyFileToTarget` call) performed, and `skipEvents` is a
ghost log of every depth-skip together with the depth at which it fired —
neither influences control flow. -/
structure WalkSt where
  published : List String
  skipped : List String
  errors : List String
  visited : List String
  processing : List String
  copies : List String
  skipEvents : List (String × Nat)
deriving DecidableEq

/-- The empty state built at the start of `publishNoteWithLinks`. -/
def initSt : WalkSt := ⟨[], [], [], [], [], [], []⟩

/-- Environment of the walk: `links p` is the list of target paths produced
by `wikilinkParser.getLinkedFiles` for the note at path `p`; `copy p` is
`none` when `copyFileToTarget` succeeds for `p` and `some msg` when it
throws an error whose `message` is `msg`; `maxDepth` is the resolved depth
bound. -/
structure WalkEnv where
  links : String → List String
  copy : String → Option String
  maxDepth : Nat

/-- `publishNoteRecursively(file, result, visited, processing, depth,
maxDepth)`: guard on `visited`/`processing`, depth-bound check
(`depth > maxDepth`), `processing.add`, try-block (copy, `published.add`,
link enumeration, sequential recursion at `depth+1`), catch-block (append
`"Error processing <path>: <message>"`), finally-block
(`processing.delete`, `visited.add`).  The `Nat` fuel bounds recursion
depth; `none` means the fuel ran out (the termination theorems show a
fuel of `maxDepth + 2` always suffices). -/
def walkF (env : WalkEnv) : Nat → String → Nat → WalkSt → Option WalkSt
  | 0, _, _, _ => none
  | fuel + 1, x, depth, s =>
    if x ∈ s.visited ∨ x ∈ s.processing then
      some s
    else if env.maxDepth < depth then
      some { s with skipped := setAdd s.skipped x,
                    skipEvents := s.skipEvents ++ [(x, depth)] }
    else
      let s1 : WalkSt := { s with processing := s.processing ++ [x] }
      let body : Option WalkSt :=
        match env.copy x with
        | some msg =>
          some { s1 with errors :=
            s1.errors ++ ["Error processing " ++ x ++ ": " ++ msg] }
        | none =>
          let s2 : WalkSt :=
            { s1 with published := setAdd s1.published x,
                      copies := s1.copies ++ [x] }
          (env.links x).foldl
            (fun acc c => acc.bind (walkF env fuel c (depth + 1))) (some s2)
      body.map fun t =>
        { t with processing := t.processing.erase x,
                 visited := setAdd t.visited x }

/-- `options.maxDepth || this.settings.maxDepth` from
`publishNoteWithLinks`: JavaScript `||` falls back when the left operand is
falsy, and the number `0` is falsy, so an explicit `maxDepth` of `0` is
treated exactly like an absent one. -/
def effectiveMaxDepth (optDepth : Option Nat) (settingsDepth : Nat) : Nat :=
  match optDepth with
  | none => settingsDepth
  | some d => if d = 0 then settingsDepth else d

/-- `publishNoteWithLinks`: resolve the depth bound, create fresh
`visited`/`processing` sets, and start the recursive walk at depth `0`. -/
def publishNoteWithLinks (links : String → List String)
    (copy : String → Option String) (optDepth : Option Nat)
    (settingsDepth : Nat) (fuel : Nat) (root : String) : Option WalkSt :=
  walkF ⟨links, copy, effectiveMaxDepth optDepth settingsDepth⟩
    fuel root 0 initSt

/-- One closure step of reachability: everything in `cur` plus every link
target of a member of `cur` (duplicate-free accumulation). -/
def stepClose (links : String → List String) (cur : List String) :
    List String :=
  cur.foldl (fun acc x => (links x).foldl setAdd acc) cur

/-- `reachWithin links root n`: the set (duplicate-free list) of paths
reachable from `root` in at most `n` link steps. -/
def reachWithin (links : String → List String) (root : String) :
    Nat → List String
  | 0 => [root]
  | n + 1 => stepClose links (reachWithin links root n)

/-- Decidable check that no repetition-free link path starting at `x` and
avoiding `seen` makes more than `b` steps.  `noLongPath links b root [root]`
states that every simple path out of `root` has at most `b` edges. -/
def noLongPath (links : String → List String) :
    Nat → String → List String → Bool
  | 0, x, seen => (links x).all fun y => y ∈ seen
  | b + 1, x, seen =>
    (links x).all fun y => y ∈ seen || noLongPath links b y (y :: seen)

/-- `chainTo links y l x`: starting from `y`, the nodes of `l` form a link
path whose final node links to `x` (so the path `y :: l ++ [x]` is
link-consistent). -/
def chainTo (links : String → List String) : String → List String → String →
    Prop
  | y, [], x => x ∈ links y
  | y, z :: rest, x => z ∈ links y ∧ chainTo links z rest x

/-- The active recursion stack `l` (oldest first) is a link path from the
root whose top links to the candidate `x`; an empty stack means `x` is the
root itself. -/
def stackOk (links : String → List String) (root : String) :
    List String → String → Prop
  | [], x => x = root
  | y :: rest, x => y = root ∧ chainTo links y rest x

/-- Invariants maintained by the walk when every copy succeeds: visited
nodes have all links inside `visited ∪ processing`; `published` is exactly
`visited ∪ processing`; everything recorded is reachable within the depth
bound; the stack is duplicate-free. -/
def GoodSt (links : String → List String) (root : String) (M : Nat)
    (s : WalkSt) : Prop :=
  (∀ p, p ∈ s.visited → ∀ q ∈ links p, q ∈ s.visited ∨ q ∈ s.processing) ∧
  (∀ p, p ∈ s.published ↔ (p ∈ s.visited ∨ p ∈ s.processing)) ∧
  (∀ p, p ∈ s.visited → p ∈ reachWithin links root M) ∧
  (∀ p, p ∈ s.processing → p ∈ reachWithin links root M) ∧
  s.processing.Nodup

/-- Environment-independent evolution facts of one walk call: the
processing stack is restored, `visited`/`published`/`skipped` only grow,
`published` stays duplicate-free, every new skip event fired strictly
beyond the depth bound, and `skipped` membership is exactly the skip-event
log; the copy log only grows by paths that end up visited or on the stack
while staying duplicate-free. -/
def WalkEvolves (M : Nat) (s t : WalkSt) : Prop :=
  t.processing = s.processing ∧
  (∀ p, p ∈ s.visited → p ∈ t.visited) ∧
  (∀ p, p ∈ s.published → p ∈ t.published) ∧
  (s.published.Nodup → t.published.Nodup) ∧
  (∃ ev, t.skipEvents = s.skipEvents ++ ev ∧ (∀ q ∈ ev, M < q.2) ∧
    (∀ p, p ∈ t.skipped ↔ p ∈ s.skipped ∨ ∃ d, (p, d) ∈ ev)) ∧
  ((s.copies.Nodup ∧ ∀ p ∈ s.copies, p ∈ s.visited ∨ p ∈ s.processing) →
    (t.copies.Nodup ∧ ∀ p ∈ t.copies, p ∈ t.visited ∨ p ∈ t.processing))

/-- Extract the final state of a walk, defaulting to the empty state. -/
def resultOr (o : Option WalkSt) : WalkSt := o.getD initSt

/-- The data of an Obsidian `TFile` that the publishing code consults:
its vault-relative path, base name and extension.  Identity is by path. -/
structure TFileM where
  path : String
  basename : String
  extension : String
deriving DecidableEq

/-- Core of the wikilink regular expressions
`\[\[([^\]|]+)(?:\|([^\]]+))?\]\]` shared by `WikilinkParser.getLinkedFiles`
and `ExcalidrawUtil.processNoteContent`: at the current position, match
`[[`, a non-empty greedy run of characters other than `]` and `|`
(the target), optionally `|` followed by a non-empty greedy run of
characters other than `]` (the display text), then `]]`.  Returns the
target, the optional display text and the remaining input; `none` when no
match starts here (the character classes admit no backtracking, so the
procedure is exact). -/
def matchCore : List Char → Option (List Char × Option (List Char) × List Char)
  | c1 :: c2 :: rest =>
    if c1 = '[' then
      if c2 = '[' then
        let tgt := rest.takeWhile fun c => !(c = ']' || c = '|')
        let r1 := rest.dropWhile fun c => !(c = ']' || c = '|')
        if tgt = [] then none
        else
          match r1 with
          | [] => none
          | a :: r2 =>
            if a = ']' then
              match r2 with
              | [] => none
              | b :: r3 => if b = ']' then some (tgt, none, r3) else none
            else if a = '|' then
              let disp := r2.takeWhile fun c => !(c = ']')
              let r4 := r2.dropWhile fun c => !(c = ']')
              if disp = [] then none
              else
                match r4 with
                | [] => none
                | x :: r5 =>
                  if x = ']' then
                    match r5 with
                    | [] => none
                    | y :: r6 =>
                      if y = ']' then some (tgt, some disp, r6) else none
                  else none
            else none
      else none
    else none
  | _ => none

/-- The scan loop of `getLinkedFiles`
(`wikilinkRegex.exec` repeated over the content): collect the raw target
text (`match[1]`) of every non-overlapping wikilink match, resuming after
each match.  Fuel-indexed; every step consumes at least one character, so
fuel equal to the length of the input is always enough. -/
def scanLinksF : Nat → List Char → List (List Char)
  | 0, _ => []
  | _ + 1, [] => []
  | fuel + 1, c :: rest =>
    match matchCore (c :: rest) with
    | some (tgt, _, r) => tgt :: scanLinksF fuel r
    | none => scanLinksF fuel rest

/-- All raw wikilink targets of a content string, in order. -/
def scanLinks (cs : List Char) : List (List Char) :=
  scanLinksF cs.length cs

/-- One configured exclusion pattern applied to a link text: try the
pattern as a regular expression (`compile` is the external JavaScript
regular-expression engine, `none` meaning the constructor threw) and test
it; on construction failure fall back to literal substring containment of
the pattern text. -/
def patternMatches (compile : String → Option (String → Bool))
    (linkText pattern : String) : Bool :=
  match compile pattern with
  | some test => test linkText
  | none => hasSub pattern.data linkText.data

/-- `WikilinkParser.isExcluded`: some configured pattern matches the link
text (`Array.some` stops at the first match). -/
def isExcluded (compile : String → Option (String → Bool))
    (patterns : List String) (linkText : String) : Bool :=
  patterns.any (patternMatches compile linkText)

/-- Link-resolution environment of `WikilinkParser`: the regular-expression
engine, the configured exclusion patterns, the metadata-cache resolver
`getFirstLinkpathDest (linkText, sourcePath)`, the (content-based)
Excalidraw classification of a resolved file, and the vault content of
each path. -/
structure LinkEnv where
  compile : String → Option (String → Bool)
  patterns : List String
  resolve : String → String → Option TFileM
  isExcal : String → String → Bool
  content : String → String

/-- The per-link filter chain of `getLinkedFiles`: trim the raw target,
drop it if excluded, resolve it, keep only markdown files, and drop
resolved Excalidraw files. -/
def processLinks (env : LinkEnv) (srcPath : String) :
    List (List Char) → List TFileM
  | [] => []
  | raw :: rest =>
    let linkText := String.mk (trimJs raw)
    if isExcluded env.compile env.patterns linkText then
      processLinks env srcPath rest
    else
      match env.resolve linkText srcPath with
      | some f =>
        if f.extension = "md" then
          if env.isExcal f.path srcPath then processLinks env srcPath rest
          else f :: processLinks env srcPath rest
        else processLinks env srcPath rest
      | none => processLinks env srcPath rest

/-- `WikilinkParser.getLinkedFiles`: scan the note's content for wikilinks
and run each raw target through the filter chain. -/
def getLinkedFiles (env : LinkEnv) (srcPath : String) : List TFileM :=
  processLinks env srcPath (scanLinks (env.content srcPath).data)

/-- The link function induced on paths: the successors of a note are the
paths of its surviving linked files. -/
def linksOfVault (env : LinkEnv) (p : String) : List String :=
  (getLinkedFiles env p).map TFileM.path

/-- `validatePublishPrerequisites`: no file, a non-markdown extension, or
an unset target folder path each yield the corresponding error message;
otherwise validation passes (`none`). -/
def validatePublishPrerequisites (file : Option TFileM)
    (targetFolderPath : String) : Option String :=
  match file with
  | none => some "No file provided"
  | some f =>
    if f.extension ≠ "md" then some "Can only publish markdown files"
    else if targetFolderPath = "" then
      some "Please configure target folder path in settings"
    else none

/-- The observable outcome of one `publishNote` call: the result sets, the
error list, and a ghost log of the storage operations (materialisations)
performed during the call. -/
structure PublishOutcome where
  published : List String
  skipped : List String
  errors : List String
  storageOps : List String
deriving DecidableEq

/-- `NoteCopier.publishNote`: validate the prerequisites and return an
otherwise-empty result carrying the single validation message on failure;
otherwise either walk the link graph (`publishNoteWithLinks`) or copy just
the root (`publishSingleNote`).  The storage-operation log is empty on the
validation path — the early return performs no read, write or folder
creation. -/
def publishNote (links : String → List String)
    (copy : String → Option String) (optDepth : Option Nat)
    (settingsDepth : Nat) (fuel : Nat) (file : Option TFileM)
    (targetFolderPath : String) (includeLinked : Bool) : PublishOutcome :=
  match validatePublishPrerequisites file targetFolderPath with
  | some err => ⟨[], [], [err], []⟩
  | none =>
    match file with
    | none => ⟨[], [], [], []⟩
    | some f =>
      if includeLinked then
        match publishNoteWithLinks links copy optDepth settingsDepth fuel
            f.path with
        | some s => ⟨s.published, s.skipped, s.errors, s.copies⟩
        | none => ⟨[], [], [], []⟩
      else
        match copy f.path with
        | none => ⟨[f.path], [], [], [f.path]⟩
        | some msg =>
          ⟨[], [], ["Failed to copy " ++ f.path ++ ": " ++ msg], [f.path]⟩

/-- `NoteCopier.isValidTargetPath`: reject empty paths, `..` traversal,
backslashes, a leading `/` and any `:`. -/
def isValidTargetPath (folderPath : String) : Bool :=
  if folderPath = "" || hasSub ['.', '.'] folderPath.data ||
      folderPath.data.contains '\\' then
    false
  else
    !(folderPath.startsWith "/") && !(folderPath.data.contains ':')

/-- The global replacement `replace(/\s*&\s*/g, '--and--')` from
`generatePublishedUrl`, generic in the whitespace class `sp`: at each
position, a (possibly empty) `sp` run followed by `&` and a trailing `sp`
run is replaced by the literal `--and--`; otherwise one character is
emitted and scanning resumes.  Fuel-indexed; every step consumes at least
one character. -/
def replAndGen (sp : Char → Bool) : Nat → List Char → List Char
  | 0, cs => cs
  | fuel + 1, cs =>
    match cs.dropWhile sp with
    | [] =>
      match cs with
      | [] => []
      | c :: rest => c :: replAndGen sp fuel rest
    | a :: r2 =>
      if a = '&' then
        '-' :: '-' :: 'a' :: 'n' :: 'd' :: '-' :: '-' ::
          replAndGen sp fuel (r2.dropWhile sp)
      else
        match cs with
        | [] => []
        | c :: rest => c :: replAndGen sp fuel rest

/-- The `--and--` replacement with the JavaScript `\s` class. -/
def replAndF : Nat → List Char → List Char := replAndGen isJsSpace

/-- `segment.replace(/\s*&\s*/g, '--and--')`. -/
def replAnd (cs : List Char) : List Char := replAndF cs.length cs

/-- The global replacement `replace(/\s+/g, '-')`: each maximal whitespace
run becomes a single hyphen.  The flag records whether the previous
character belonged to the current run. -/
def replSpGo : Bool → List Char → List Char
  | _, [] => []
  | inRun, c :: rest =>
    if isJsSpace c then
      (if inRun then [] else ['-']) ++ replSpGo true rest
    else c :: replSpGo false rest

/-- `segment.replace(/\s+/g, '-')`. -/
def replSp (cs : List Char) : List Char := replSpGo false cs

/-- `path.replace(/\.md$/, '')`: drop a trailing `.md` when present. -/
def stripMd (cs : List Char) : List Char :=
  match cs.reverse with
  | 'd' :: 'm' :: '.' :: rest => rest.reverse
  | _ => cs

/-- JavaScript `String.split('/')`. -/
def splitSlash : List Char → List (List Char)
  | [] => [[]]
  | c :: rest =>
    if c = '/' then [] :: splitSlash rest
    else
      match splitSlash rest with
      | [] => [[c]]
      | s :: ss => (c :: s) :: ss

/-- JavaScript `Array.join('/')`. -/
def joinSlash : List (List Char) → List Char
  | [] => []
  | [s] => s
  | s :: rest => s ++ '/' :: joinSlash rest

/-- UTF-8 encoding of one scalar value, as the byte values
`encodeURIComponent` percent-encodes. -/
def utf8Bytes (c : Char) : List Nat :=
  let n := c.toNat
  if n < 128 then [n]
  else if n < 2048 then [192 + n / 64, 128 + n % 64]
  else if n < 65536 then
    [224 + n / 4096, 128 + (n / 64) % 64, 128 + n % 64]
  else
    [240 + n / 262144, 128 + (n / 4096) % 64, 128 + (n / 64) % 64,
      128 + n % 64]

/-- Upper-case hexadecimal digit, as produced by `encodeURIComponent`. -/
def hexDigit (n : Nat) : Char :=
  if n < 10 then Char.ofNat (48 + n) else Char.ofNat (55 + n)

/-- The characters `encodeURIComponent` leaves unescaped:
`A–Z a–z 0–9 - _ . ! ~ * ' ( )`. -/
def isUnreservedURI (c : Char) : Bool :=
  let n := c.toNat
  (65 ≤ n && n ≤ 90) || (97 ≤ n && n ≤ 122) || (48 ≤ n && n ≤ 57) ||
  n = 45 || n = 95 || n = 46 || n = 33 || n = 126 || n = 42 || n = 39 ||
  n = 40 || n = 41

/-- JavaScript `encodeURIComponent` on one path segment: unreserved
characters pass through, every other character is replaced by the
percent-encoding of its UTF-8 bytes. -/
def encodeURIComponentChars : List Char → List Char
  | [] => []
  | c :: rest =>
    (if isUnreservedURI c then [c]
     else (utf8Bytes c).foldr
       (fun b acc => '%' :: hexDigit (b / 16) :: hexDigit (b % 16) :: acc)
       []) ++ encodeURIComponentChars rest

/-- The per-segment text transformation of `generatePublishedUrl`:
`--and--` substitution, then whitespace-run hyphenation. -/
def segTransform (seg : List Char) : List Char := replSp (replAnd seg)

/-- `NoteCopier.generatePublishedUrl`: `null` when no base URL is
configured; otherwise strip a trailing `.md` from the original source
path, split on `/`, transform each segment, rejoin, split again, percent-
encode each segment, rejoin, and prefix `baseUrl + "/"`. -/
def generatePublishedUrl (baseUrl path : List Char) : Option (List Char) :=
  if baseUrl = [] then none
  else
    let pathNoExt := stripMd path
    let urlFriendly := joinSlash ((splitSlash pathNoExt).map segTransform)
    let encoded :=
      joinSlash ((splitSlash urlFriendly).map encodeURIComponentChars)
    some (baseUrl ++ '/' :: encoded)

/-- Modelled from the spec's description of `publicUrl` (for the
refinement statement of the URL claim): take the source path, strip a
trailing `.md`, split on `/` once, transform then percent-encode each
segment independently, rejoin with `/`, and prefix `baseUrl + "/"`. -/
def publicUrlSpec (baseUrl path : List Char) : List Char :=
  baseUrl ++ '/' ::
    joinSlash ((splitSlash (stripMd path)).map
      fun seg => encodeURIComponentChars (segTransform seg))

/-- One wikilink token of the Excalidraw rewrite regular expression
`(!?\[\[([^|\]]+)(?:\|([^\]]+))?\]\])`: embed marker, raw target
(`match[2]`), optional display text (`match[3]`). -/
structure WikiTok where
  bang : Bool
  target : List Char
  display : Option (List Char)
deriving DecidableEq

/-- The full matched text (`match[1]`) of a wikilink token. -/
def fullText (t : WikiTok) : List Char :=
  (if t.bang then ['!'] else []) ++ '[' :: '[' :: t.target ++
    (match t.display with | some d => '|' :: d | none => []) ++ [']', ']']

/-- The `matchAll` scan of `ExcalidrawUtil.processNoteContent`: collect
every non-overlapping wikilink token (with its optional leading `!`) in
order, resuming after each match.  Fuel-indexed; every step consumes at
least one character. -/
def scanToksF : Nat → List Char → List WikiTok
  | 0, _ => []
  | _ + 1, [] => []
  | fuel + 1, c :: rest =>
    if c = '!' then
      match matchCore rest with
      | some (tgt, disp, r) => ⟨true, tgt, disp⟩ :: scanToksF fuel r
      | none => scanToksF fuel rest
    else
      match matchCore (c :: rest) with
      | some (tgt, disp, r) => ⟨false, tgt, disp⟩ :: scanToksF fuel r
      | none => scanToksF fuel rest

/-- All wikilink tokens of a content string, in order. -/
def scanToks (cs : List Char) : List WikiTok :=
  scanToksF cs.length cs

/-- ECMAScript `GetSubstitution` for a string-pattern `String.replace`:
in the replacement text `$$` yields a literal `$`, `$&` the matched
substring, `` $` `` (dollar, backtick) the portion of the input before
the match and `$'` (dollar, apostrophe) the portion after it; with a
string pattern there are no capture groups, so `$` before any other
character stays literal. -/
def substDollar (matched pre post : List Char) : List Char → List Char
  | [] => []
  | [c] => [c]
  | c :: d :: rest =>
    if c = '$' then
      if d = '$' then '$' :: substDollar matched pre post rest
      else if d = '&' then matched ++ substDollar matched pre post rest
      else if d = Char.ofNat 96 then pre ++ substDollar matched pre post rest
      else if d = Char.ofNat 39 then post ++ substDollar matched pre post rest
      else c :: d :: substDollar matched pre post rest
    else c :: substDollar matched pre post (d :: rest)

/-- A replacement string without `$`: the condition under which
`GetSubstitution` inserts it verbatim. -/
def noDollar (l : List Char) : Bool := l.all fun c => !(c = '$')

/-- Scan of JavaScript `String.replace(searchString, replacement)`: find
the first occurrence of `pat` and splice in `repl` after
`GetSubstitution` processing; the accumulator carries the (reversed)
text already passed over, which the backtick pattern substitutes. -/
def replaceFirstAux (pat repl : List Char) : List Char → List Char → List Char
  | pre, [] =>
    if pat.isPrefixOf ([] : List Char) then substDollar [] pre.reverse [] repl
    else []
  | pre, c :: rest =>
    if pat.isPrefixOf (c :: rest) then
      substDollar pat pre.reverse ((c :: rest).drop pat.length) repl ++
        (c :: rest).drop pat.length
    else c :: replaceFirstAux pat repl (c :: pre) rest

/-- JavaScript `String.replace(searchString, replacement)`: replace the
first occurrence of `pat`, substituting `$`-patterns in the replacement
(the whole input is returned unchanged when `pat` does not occur). -/
def replaceFirst (pat repl cs : List Char) : List Char :=
  replaceFirstAux pat repl [] cs

/-- Environment of the Excalidraw rewrite pass: `resolve` is
`metadataCache.getFirstLinkpathDest` for the current file, `classify` is
the front-matter/extension classification of a resolved file's content
(`isExcalidrawFile`), and `render` is the success of the
read → decompress → parse → `exportToBlob` chain for a drawing's content
(all external collaborators). -/
structure ExcEnv where
  resolve : String → Option TFileM
  classify : String → Bool
  render : String → Bool

/-- Vault state threaded through the rewrite pass: the set of existing
paths (`getAbstractFileByPath` truthiness) and the `createdImages` log. -/
structure ExcSt where
  existing : List String
  createdImages : List String
deriving DecidableEq

/-- `ExcalidrawUtil.isExcalidrawFile`: resolve the link text; an
unresolvable link is never a drawing, otherwise classify the resolved
file. -/
def isExcalidrawLink (env : ExcEnv) (fileName : String) : Bool :=
  match env.resolve fileName with
  | some f => env.classify f.path
  | none => false

/-- The candidate image file names tried by `exportExcalidrawToImage`:
`<base>.png` first, then `<base>_1.png`, `<base>_2.png`, … -/
def candName (base : String) (k : Nat) : String :=
  if k = 0 then base ++ ".png" else base ++ "_" ++ toString k ++ ".png"

/-- The collision `while` loop of `exportExcalidrawToImage`: starting from
candidate index `k`, return the first index whose full path does not
already exist.  Fuel-indexed (`none` on exhaustion; the source loop is
unbounded). -/
def findFreeIdx (existing : List String) (folder base : String) :
    Nat → Nat → Option Nat
  | 0, _ => none
  | fuel + 1, k =>
    if folder ++ "/" ++ candName base k ∈ existing then
      findFreeIdx existing folder base fuel (k + 1)
    else some k

/-- `createFolderRecursively`: create every missing ancestor component of
a folder path, accumulating component by component. -/
def createFoldersRec (existing : List String) (folderPath : String) :
    List String :=
  (((splitSlash folderPath.data).map String.mk).foldl
    (fun acc part =>
      let cur := if acc.2 = "" then part else acc.2 ++ "/" ++ part
      (setAdd acc.1 cur, cur))
    (existing, "")).1

/-- `ensureImageFolderExists`: a no-op when the folder already exists. -/
def ensureImageFolderExists (existing : List String) (p : String) :
    List String :=
  if p ∈ existing then existing else createFoldersRec existing p

/-- `ExcalidrawUtil.exportExcalidrawToImage`: resolve the link, run the
external read/decompress/parse/render chain, and on success persist the
image flat under the `_Image` subfolder of the target root, named after
the drawing's base name with successive numeric suffixes tried on
collision until an unused path is found; the created path is recorded in
`existing` and `createdImages`.  Any failure yields `none` with no image
created. -/
def exportExcalidrawToImage (env : ExcEnv) (targetRoot : String)
    (fuel : Nat) (st : ExcSt) (fileName : String) :
    Option String × ExcSt :=
  match env.resolve fileName with
  | none => (none, st)
  | some f =>
    if env.render f.path then
      let imageFolderPath :=
        if targetRoot ≠ "" then targetRoot ++ "/_Image" else "_Image"
      let ex1 := ensureImageFolderExists st.existing imageFolderPath
      match findFreeIdx ex1 imageFolderPath f.basename fuel 0 with
      | some k =>
        let name := candName f.basename k
        let fp := imageFolderPath ++ "/" ++ name
        (some name, ⟨ex1 ++ [fp], st.createdImages ++ [fp]⟩)
      | none => (none, ⟨ex1, st.createdImages⟩)
    else (none, st)

/-- The replacement link built by `processNoteContent`: image-embed form,
preserving the original display text when present. -/
def imageLinkOf (imageFileName : String) (display : Option (List Char)) :
    List Char :=
  match display with
  | some d => '!' :: '[' :: '[' :: (imageFileName.data ++ '|' :: d ++ [']', ']'])
  | none => '!' :: '[' :: '[' :: (imageFileName.data ++ [']', ']'])

/-- The per-match loop of `processNoteContent`: for each token of the
original content, in order, replace the first occurrence of its full text
by the image-embed link when the target classifies as a drawing and the
export succeeds; otherwise leave the content untouched and continue. -/
def processToks (env : ExcEnv) (targetRoot : String) (fuel : Nat) :
    List WikiTok → List Char → ExcSt → List Char × ExcSt
  | [], content, st => (content, st)
  | t :: rest, content, st =>
    let fileName := String.mk t.target
    if isExcalidrawLink env fileName then
      match exportExcalidrawToImage env targetRoot fuel st fileName with
      | (some img, st1) =>
        processToks env targetRoot fuel rest
          (replaceFirst (fullText t) (imageLinkOf img t.display) content) st1
      | (none, st1) => processToks env targetRoot fuel rest content st1
    else processToks env targetRoot fuel rest content st

/-- `ExcalidrawUtil.processNoteContent`: scan the content for wikilink
tokens, then run the per-match rewrite loop over the scanned list. -/
def processNoteContent (env : ExcEnv) (targetRoot : String) (fuel : Nat)
    (content : List Char) (st : ExcSt) : List Char × ExcSt :=
  processToks env targetRoot fuel (scanToks content) content st

/-- Structured content: an interleaving of plain text runs and wikilink
tokens, used to state what the rewrite pass does to a whole document. -/
inductive Chunk where
  | plain (s : List Char)
  | tok (t : WikiTok)
deriving DecidableEq

/-- Flatten structured content to its character sequence. -/
def renderChunks : List Chunk → List Char
  | [] => []
  | Chunk.plain s :: rest => s ++ renderChunks rest
  | Chunk.tok t :: rest => fullText t ++ renderChunks rest

/-- The wikilink tokens of structured content, in order. -/
def toksOf : List Chunk → List WikiTok
  | [] => []
  | Chunk.plain _ :: rest => toksOf rest
  | Chunk.tok t :: rest => t :: toksOf rest

/-- Well-formedness of one token for the scanner statement: non-empty
target without `]` or `|`, and (when present) a non-empty display text
without `]` — exactly the texts the source regular expression can
produce. -/
def wfTok (t : WikiTok) : Bool :=
  !t.target.isEmpty && t.target.all (fun c => !(c = ']' || c = '|')) &&
  (match t.display with
   | none => true
   | some d => !d.isEmpty && d.all fun c => !(c = ']'))

/-- Well-formedness of a chunk: plain runs contain neither `[` nor `!`
(so they can neither start nor extend a wikilink match), and tokens are
well-formed. -/
def wfChunk : Chunk → Bool
  | Chunk.plain s => s.all fun c => !(c = '[' || c = '!')
  | Chunk.tok t => wfTok t

/-- Well-formedness of structured content. -/
def wfChunksB (l : List Chunk) : Bool := l.all wfChunk

/-- `noStartIn pre tail pat`: no occurrence of `pat` in `pre ++ tail`
starts inside `pre` — the condition under which a first-occurrence
replacement leaves `pre` untouched. -/
def noStartIn (pre tail pat : List Char) : Bool :=
  match pre with
  | [] => true
  | c :: pre2 =>
    !(pat.isPrefixOf (c :: (pre2 ++ tail))) && noStartIn pre2 tail pat

/-- Modelled from the spec's description of the content rewrite pass (for
the refinement statement): walk the structured content left to right,
keeping plain runs and non-drawing or failed-export tokens
character-for-character, and replacing each drawing token whose export
succeeds by the image-embed link; the Boolean records that each
replacement's first occurrence was the token itself (no earlier aliased
occurrence) and that the replacement text contains no `$` substitution
pattern — the two conditions first-occurrence `String.replace` on the
flat text needs to behave as the spec describes. -/
def processChunksSpec (env : ExcEnv) (targetRoot : String) (fuel : Nat) :
    List Chunk → List Char → ExcSt → List Char × ExcSt × Bool
  | [], done, st => (done, st, true)
  | Chunk.plain s :: rest, done, st =>
    processChunksSpec env targetRoot fuel rest (done ++ s) st
  | Chunk.tok t :: rest, done, st =>
    let fileName := String.mk t.target
    if isExcalidrawLink env fileName then
      match exportExcalidrawToImage env targetRoot fuel st fileName with
      | (some img, st1) =>
        let ok := noStartIn done (fullText t ++ renderChunks rest)
            (fullText t) &&
          noDollar (imageLinkOf img t.display)
        let r := processChunksSpec env targetRoot fuel rest
          (done ++ imageLinkOf img t.display) st1
        (r.1, r.2.1, ok && r.2.2)
      | (none, st1) =>
        processChunksSpec env targetRoot fuel rest (done ++ fullText t) st1
    else processChunksSpec env targetRoot fuel rest (done ++ fullText t) st

/-- Concrete acyclic graph `r → a, b; a → b; b → c` whose longest simple
path from `r` has three edges. -/
def linksDiamond : String → List String
  | "r" => ["a", "b"]
  | "a" => ["b"]
  | "b" => ["c"]
  | _ => []

/-- Concrete line graph `r → a → b`. -/
def linksLine : String → List String
  | "r" => ["a"]
  | "a" => ["b"]
  | _ => []

/-- Concrete cyclic graph `r → a → r` with a side branch `a → b`. -/
def linksCyc : String → List String
  | "r" => ["a"]
  | "a" => ["r", "b"]
  | _ => []

/-- Copy always succeeds. -/
def copyOkF : String → Option String := fun _ => none

/-- Copy fails exactly at path `a` with message `boom`. -/
def copyFailA : String → Option String :=
  fun p => if p = "a" then some "boom" else none

/-- Concrete link-resolution environment whose filtered link relation is
the line `r.md → A.md → B.md`: three markdown notes, no exclusion
patterns, no Excalidraw files. -/
def lenvLine : LinkEnv :=
  ⟨fun _ => none, [],
    fun t _ =>
      if t = "A" then some ⟨"A.md", "A", "md"⟩
      else if t = "B" then some ⟨"B.md", "B", "md"⟩
      else none,
    fun _ _ => false,
    fun p =>
      if p = "r.md" then "start [[A]] end"
      else if p = "A.md" then "[[B|see b]]"
      else ""⟩

/-- Concrete rewrite environment: `D` and `E` resolve to markdown files
classified as drawings, `B` resolves to an ordinary note; only `D`
renders successfully. -/
def excEnvW : ExcEnv :=
  ⟨fun s =>
      if s = "D" then some ⟨"D.md", "D", "md"⟩
      else if s = "E" then some ⟨"E.md", "E", "md"⟩
      else if s = "B" then some ⟨"B.md", "B", "md"⟩
      else none,
    fun p => p = "D.md" || p = "E.md",
    fun p => p = "D.md"⟩

/-- Concrete structured content mixing plain runs, a displayed drawing
link, a second embed of the same drawing (to exercise the collision
suffix), an ordinary note link and a drawing whose render fails. -/
def chunksW : List Chunk :=
  [Chunk.plain (" pre ").data,
   Chunk.tok ⟨false, ['D'], some ['p', 'i', 'c']⟩,
   Chunk.plain (" mid ").data,
   Chunk.tok ⟨true, ['D'], none⟩,
   Chunk.plain (" x ").data,
   Chunk.tok ⟨false, ['B'], none⟩,
   Chunk.tok ⟨true, ['E'], none⟩]

/-- Initial vault state for the rewrite witness: only the target root
folder exists. -/
def excStW : ExcSt := ⟨["pub"], []⟩

/-- Rewrite environment for the aliasing counterexample: both `D` and
`D.png` resolve to drawings (`D.png` to a file with base name `Dp`), and
every render succeeds. -/
def excEnvAlias : ExcEnv :=
  ⟨fun s =>
      if s = "D" then some ⟨"D.md", "D", "md"⟩
      else if s = "D.png" then some ⟨"Dp.md", "Dp", "md"⟩
      else none,
    fun p => p = "D.md" || p = "Dp.md",
    fun _ => true⟩

theorem mem_setAdd {l : List String} {x p : String} :
    p ∈ setAdd l x ↔ p ∈ l ∨ p = x := by
  unfold setAdd
  by_cases h : x ∈ l
  · simp only [if_pos h, iff_self_or]
    rintro rfl; exact h
  · simp [if_neg h, List.mem_append]

theorem nodup_setAdd {l : List String} {x : String} (h : l.Nodup) :
    (setAdd l x).Nodup := by
  unfold setAdd
  by_cases hx : x ∈ l
  · simpa [if_pos hx]
  · simp only [if_neg hx, List.nodup_append]
    refine ⟨h, List.nodup_singleton x, ?_⟩
    intro a ha hax
    rw [List.mem_singleton] at hax
    exact hx (hax ▸ ha)

theorem erase_append_singleton {l : List String} {x : String} (h : x ∉ l) :
    (l ++ [x]).erase x = l := by
  rw [List.erase_append_right _ h, List.erase_cons_head]
  simp

theorem mem_foldl_setAdd {acc : List String} {l : List String} {p : String} :
    p ∈ l.foldl setAdd acc ↔ p ∈ acc ∨ p ∈ l := by
  induction l generalizing acc with
  | nil => simp
  | cons a l ih =>
    rw [List.foldl_cons, ih, mem_setAdd]
    simp only [List.mem_cons]
    tauto

/-- C10: `isValidTargetPath` returns `true` exactly for the non-empty
paths that contain no `..`, no backslash, no `:`, and do not start with
`/` — the validator rejects exactly the empty, parent-traversal,
backslash, absolute and drive-qualified paths. -/
theorem isValidTargetPath_spec (p : String) :
    isValidTargetPath p = true ↔
      (p ≠ "" ∧ hasSub ['.', '.'] p.data = false ∧
        p.data.contains '\\' = false ∧ p.startsWith "/" = false ∧
        p.data.contains ':' = false) := by
  unfold isValidTargetPath
  by_cases h1 : p = "" <;> by_cases h2 : hasSub ['.', '.'] p.data <;>
    by_cases h3 : p.data.contains '\\' <;>
    simp [h1, h2, h3, Bool.and_eq_true, Bool.not_eq_true']

/-- C9: a publish call that fails validation — no file, a non-markdown
extension, or an unset target folder path — returns immediately with
empty `publishedFiles` and `skippedFiles`, exactly one validation message
in `errors`, and an empty storage-operation log (no read, write or folder
creation happens before the early return); and validation passes exactly
for markdown files with a non-empty target folder path. -/
theorem publishNote_validation_spec :
    (∀ links copy optDepth settingsDepth fuel tfp incl,
      publishNote links copy optDepth settingsDepth fuel none tfp incl =
        ⟨[], [], ["No file provided"], []⟩) ∧
    (∀ links copy optDepth settingsDepth fuel (f : TFileM) tfp incl,
      f.extension ≠ "md" →
      publishNote links copy optDepth settingsDepth fuel (some f) tfp incl =
        ⟨[], [], ["Can only publish markdown files"], []⟩) ∧
    (∀ links copy optDepth settingsDepth fuel (f : TFileM) incl,
      f.extension = "md" →
      publishNote links copy optDepth settingsDepth fuel (some f) "" incl =
        ⟨[], [], ["Please configure target folder path in settings"], []⟩) ∧
    (∀ file tfp, validatePublishPrerequisites file tfp = none ↔
      ((∃ f, file = some f ∧ f.extension = "md") ∧ tfp ≠ "")) := by
  refine ⟨?_, ?_, ?_, ?_⟩
  · intro links copy optDepth settingsDepth fuel tfp incl
    rfl
  · intro links copy optDepth settingsDepth fuel f tfp incl hext
    simp [publishNote, validatePublishPrerequisites, hext]
  · intro links copy optDepth settingsDepth fuel f incl hext
    simp [publishNote, validatePublishPrerequisites, hext]
  · intro file tfp
    match file with
    | none => simp [validatePublishPrerequisites]
    | some f =>
      by_cases hext : f.extension = "md" <;>
        by_cases htfp : tfp = "" <;>
        simp [validatePublishPrerequisites, hext, htfp]

/-- C9 witness: the three validation failures at concrete inputs. -/
theorem publishNote_validation_witness :
    publishNote (fun _ => []) (fun _ => none) none 5 7 none "pub" true =
      ⟨[], [], ["No file provided"], []⟩ ∧
    publishNote (fun _ => []) (fun _ => none) none 5 7
        (some ⟨"a.png", "a", "png"⟩) "pub" true =
      ⟨[], [], ["Can only publish markdown files"], []⟩ ∧
    publishNote (fun _ => []) (fun _ => none) none 5 7
        (some ⟨"a.md", "a", "md"⟩) "" true =
      ⟨[], [], ["Please configure target folder path in settings"], []⟩ := by
  refine ⟨?_, ?_, ?_⟩
  · exact publishNote_validation_spec.1 _ _ _ _ _ _ _
  · exact publishNote_validation_spec.2.1 _ _ _ _ _ ⟨"a.png", "a", "png"⟩ _ _
      (by decide)
  · exact publishNote_validation_spec.2.2.1 _ _ _ _ _ ⟨"a.md", "a", "md"⟩ _
      (by decide)

/-- C8: the exclusion check returns `true` iff some configured pattern
matches the link text, where a pattern that compiles is tested as a
regular expression and a pattern that fails to compile falls back to
literal substring containment; it short-circuits at the first matching
pattern, returns `false` on the empty list, and a link whose (trimmed)
raw text is excluded contributes nothing to the resolved link set. -/
theorem isExcluded_spec :
    (∀ compile patterns s, isExcluded compile patterns s = true ↔
      ∃ p ∈ patterns, patternMatches compile s p = true) ∧
    (∀ compile p rest s, isExcluded compile (p :: rest) s =
      (patternMatches compile s p || isExcluded compile rest s)) ∧
    (∀ compile s, isExcluded compile [] s = false) ∧
    (∀ compile pattern s, compile pattern = none →
      patternMatches compile s pattern = hasSub pattern.data s.data) ∧
    (∀ compile pattern s test, compile pattern = some test →
      patternMatches compile s pattern = test s) ∧
    (∀ (env : LinkEnv) srcPath raw rest,
      isExcluded env.compile env.patterns (String.mk (trimJs raw)) = true →
      processLinks env srcPath (raw :: rest) = processLinks env srcPath rest) := by
  refine ⟨?_, ?_, ?_, ?_, ?_, ?_⟩
  · intro compile patterns s
    exact List.any_eq_true
  · intro compile p rest s
    simp [isExcluded]
  · intro compile s
    rfl
  · intro compile pattern s h
    simp [patternMatches, h]
  · intro compile pattern s test h
    simp [patternMatches, h]
  · intro env srcPath raw rest h
    simp only [processLinks, h, if_true]

/-- C8 witness: a valid pattern matching by regular expression, an invalid
pattern matching by substring fallback, first-match short-circuit, the
empty pattern list, and the dropped excluded link, all at concrete
inputs. -/
theorem isExcluded_witness :
    (isExcluded (fun p => if p = "bad(" then none else some fun s => s = p)
        ["bad(", "daily"] "x bad( y" = true ↔
      ∃ p ∈ ["bad(", "daily"],
        patternMatches
          (fun p => if p = "bad(" then none else some fun s => s = p)
          "x bad( y" p = true) ∧
    isExcluded (fun _ => some fun _ => false) [] "anything" = false ∧
    processLinks
        ⟨fun _ => some fun _ => true, ["t"],
          fun t _ => some ⟨t, t, "md"⟩, fun _ _ => false, fun _ => ""⟩
        "src" [" A ".data, "B".data] =
      processLinks
        ⟨fun _ => some fun _ => true, ["t"],
          fun t _ => some ⟨t, t, "md"⟩, fun _ _ => false, fun _ => ""⟩
        "src" ["B".data] := by
  refine ⟨isExcluded_spec.1 _ _ _, isExcluded_spec.2.2.1 _ _, ?_⟩
  exact isExcluded_spec.2.2.2.2.2 _ "src" " A ".data ["B".data] (by decide)

theorem foldl_bind_none (f : String → WalkSt → Option WalkSt)
    (xs : List String) :
    xs.foldl (fun acc c => acc.bind (f c)) none = none := by
  induction xs with
  | nil => rfl
  | cons x xs ih => simpa using ih

theorem walk_zero_bound_fold (env : WalkEnv) (root : String) (fuel : Nat)
    (hM : env.maxDepth = 0) :
    ∀ (xs : List String) (s : WalkSt), s.visited = [] →
      s.processing = [root] →
      ∃ t, xs.foldl
          (fun acc c => acc.bind (walkF env (fuel + 1) c 1)) (some s) =
          some t ∧
        t.published = s.published ∧ t.visited = [] ∧
        t.processing = [root] ∧
        (∀ p, p ∈ t.skipped ↔ p ∈ s.skipped ∨ (p ∈ xs ∧ p ≠ root)) := by
  intro xs
  induction xs with
  | nil =>
    intro s hv hp
    exact ⟨s, rfl, rfl, hv, hp, by simp⟩
  | cons c rest ih =>
    intro s hv hp
    by_cases hc : c = root
    · have hstep : walkF env (fuel + 1) c 1 s = some s := by
        rw [walkF]
        have : c ∈ s.visited ∨ c ∈ s.processing := by
          right; rw [hp, hc]; exact List.mem_singleton_self root
        rw [if_pos this]
      rw [List.foldl_cons]
      simp only [Option.bind_eq_bind, Option.some_bind, hstep]
      obtain ⟨t, h1, h2, h3, h4, h5⟩ := ih s hv hp
      refine ⟨t, h1, h2, h3, h4, fun p => ?_⟩
      rw [h5 p]
      subst hc
      constructor
      · rintro (h | ⟨h, hne⟩)
        · exact Or.inl h
        · exact Or.inr ⟨List.mem_cons_of_mem _ h, hne⟩
      · rintro (h | ⟨h, hne⟩)
        · exact Or.inl h
        · rcases List.mem_cons.mp h with rfl | h
          · exact absurd rfl hne
          · exact Or.inr ⟨h, hne⟩
    · have hguard : ¬ (c ∈ s.visited ∨ c ∈ s.processing) := by
        rw [hv, hp]
        simp [hc]
      have hstep : walkF env (fuel + 1) c 1 s =
          some { s with skipped := setAdd s.skipped c,
                        skipEvents := s.skipEvents ++ [(c, 1)] } := by
        rw [walkF, if_neg hguard, if_pos (by rw [hM]; exact Nat.zero_lt_one)]
      rw [List.foldl_cons]
      simp only [Option.bind_eq_bind, Option.some_bind, hstep]
      obtain ⟨t, h1, h2, h3, h4, h5⟩ :=
        ih { s with skipped := setAdd s.skipped c,
                    skipEvents := s.skipEvents ++ [(c, 1)] } hv hp
      refine ⟨t, h1, h2, h3, h4, fun p => ?_⟩
      rw [h5 p]
      simp only [mem_setAdd, List.mem_cons]
      constructor
      · rintro ((h | rfl) | ⟨h, hne⟩)
        · exact Or.inl h
        · exact Or.inr ⟨Or.inl rfl, hc⟩
        · exact Or.inr ⟨Or.inr h, hne⟩
      · rintro (h | ⟨(rfl | h), hne⟩)
        · exact Or.inl (Or.inl h)
        · exact Or.inl (Or.inr rfl)
        · exact Or.inr ⟨h, hne⟩

/-- C3 counterexample: with `options.maxDepth = 0`, `includeLinked = true`
and `settings.maxDepth = 5`, the direct link `a` of root `r` is published,
not skipped — the claim predicts `publishedFiles = {r}` and
`skippedFiles = {a}`, but JavaScript `||` treats the explicit `0` as
absent and uses the settings bound instead. -/
theorem maxDepth_zero_option_not_honored :
    (publishNoteWithLinks linksLine copyOkF (some 0) 5 8 "r").map
        WalkSt.published = some ["r", "a", "b"] ∧
    (publishNoteWithLinks linksLine copyOkF (some 0) 5 8 "r").map
        WalkSt.skipped = some [] ∧
    "a" ∈ linksLine "r" := by
  refine ⟨?_, ?_, ?_⟩ <;> decide

/-- C3 amended: a publish call with `options.maxDepth = 0` runs the walk
with `settings.maxDepth` as the bound (the explicit `0` is falsy, hence
treated as unset); the behaviour the claim describes — only the root
published, every direct link recorded in `skippedFiles` — occurs exactly
when the effective bound is `0`, e.g. when `settings.maxDepth` is also
`0`. -/
theorem maxDepth_zero_falls_back_to_settings :
    (∀ links copy settingsDepth fuel root,
      publishNoteWithLinks links copy (some 0) settingsDepth fuel root =
        walkF ⟨links, copy, settingsDepth⟩ fuel root 0 initSt) ∧
    (∀ (env : WalkEnv) fuel root s', env.maxDepth = 0 →
      env.copy root = none →
      walkF env (fuel + 2) root 0 initSt = some s' →
      s'.published = [root] ∧
      (∀ p, p ∈ s'.skipped ↔ p ∈ env.links root ∧ p ≠ root)) := by
  constructor
  · intro links copy settingsDepth fuel root
    rfl
  · intro env fuel root s' hM hcopy hw
    have he : fuel + 2 = (fuel + 1) + 1 := rfl
    rw [he, walkF] at hw
    rw [if_neg (by simp [initSt])] at hw
    rw [if_neg (by simp [hM])] at hw
    simp only [hcopy] at hw
    obtain ⟨t, hfold, hpub, hvis, hproc, hskip⟩ :=
      walk_zero_bound_fold env root fuel hM (env.links root)
        { initSt with processing := initSt.processing ++ [root],
                      published := setAdd initSt.published root,
                      copies := initSt.copies ++ [root] }
        rfl (by simp [initSt])
    rw [show (0 : Nat) + 1 = 1 from rfl, hfold] at hw
    simp only [Option.map_some'] at hw
    obtain rfl :
        { t with processing := t.processing.erase root,
                 visited := setAdd t.visited root } = s' :=
      Option.some.inj hw
    refine ⟨?_, fun p => ?_⟩
    · simpa [initSt, setAdd] using hpub
    · have := hskip p
      simpa [initSt] using this

/-- C3 amended witness: the fallback equation and the bound-zero behaviour
at concrete inputs (`settings.maxDepth = 0` makes the effective bound `0`,
publishing only the root and skipping its direct link). -/
theorem maxDepth_zero_falls_back_witness :
    publishNoteWithLinks linksLine copyOkF (some 0) 5 8 "r" =
      walkF ⟨linksLine, copyOkF, 5⟩ 8 "r" 0 initSt ∧
    (resultOr (walkF ⟨linksLine, copyOkF, 0⟩ 6 "r" 0 initSt)).published =
      ["r"] ∧
    ("a" ∈ (resultOr (walkF ⟨linksLine, copyOkF, 0⟩ 6 "r" 0 initSt)).skipped ↔
      ("a" ∈ linksLine "r" ∧ "a" ≠ "r")) := by
  have h2 := maxDepth_zero_falls_back_to_settings.2 ⟨linksLine, copyOkF, 0⟩
    4 "r" (resultOr (walkF ⟨linksLine, copyOkF, 0⟩ 6 "r" 0 initSt))
    rfl rfl (by decide)
  exact ⟨maxDepth_zero_falls_back_to_settings.1 linksLine copyOkF 5 8 "r",
    h2.1, h2.2 "a"⟩

/-- C4 counterexample: when copying `a` fails, `a`'s outgoing link `b`
(itself perfectly copyable) is neither enumerated nor recursed into —
`b` ends the walk unvisited, unpublished and unskipped, although the
claim says the failed node's links are still followed (which would have
materialised `b`).  The error string and the failed node's move to
`visited` do happen. -/
theorem failed_node_children_not_recursed :
    (walkF ⟨linksLine, copyFailA, 5⟩ 8 "r" 0 initSt).map WalkSt.errors =
      some ["Error processing a: boom"] ∧
    (resultOr (walkF ⟨linksLine, copyFailA, 5⟩ 8 "r" 0 initSt)).published =
      ["r"] ∧
    "a" ∈ (resultOr (walkF ⟨linksLine, copyFailA, 5⟩ 8 "r" 0 initSt)).visited ∧
    "b" ∉ (resultOr (walkF ⟨linksLine, copyFailA, 5⟩ 8 "r" 0 initSt)).visited ∧
    "b" ∉ (resultOr (walkF ⟨linksLine, copyFailA, 5⟩ 8 "r" 0 initSt)).published ∧
    "b" ∉ (resultOr (walkF ⟨linksLine, copyFailA, 5⟩ 8 "r" 0 initSt)).skipped ∧
    "b" ∈ linksLine "a" ∧ copyFailA "b" = none := by
  refine ⟨?_, ?_, ?_, ?_, ?_, ?_, ?_, ?_⟩ <;> decide

/-- C4 amended: when materialising a fresh node within the depth bound
fails, the error string `"Error processing <path>: <message>"` is appended
to `errors`, the node is not added to `publishedFiles`, and the `finally`
block still moves it from `processing` to `visited`; the call returns
normally (nothing else in the state changes — in particular the node's
outgoing links are NOT enumerated or recursed into), and the parent's loop
simply continues with the remaining siblings from that state. -/
theorem copy_failure_records_error_and_visits (env : WalkEnv) (fuel : Nat)
    (x : String) (depth : Nat) (s : WalkSt) (msg : String)
    (hxv : x ∉ s.visited) (hxp : x ∉ s.processing)
    (hdep : depth ≤ env.maxDepth) (hcopy : env.copy x = some msg) :
    walkF env (fuel + 1) x depth s =
      some { s with
        errors := s.errors ++ ["Error processing " ++ x ++ ": " ++ msg],
        visited := setAdd s.visited x } ∧
    (∀ rest : List String,
      (x :: rest).foldl
        (fun acc c => acc.bind (walkF env (fuel + 1) c depth)) (some s) =
      rest.foldl
        (fun acc c => acc.bind (walkF env (fuel + 1) c depth))
        (some { s with
          errors := s.errors ++ ["Error processing " ++ x ++ ": " ++ msg],
          visited := setAdd s.visited x })) := by
  have hmain : walkF env (fuel + 1) x depth s =
      some { s with
        errors := s.errors ++ ["Error processing " ++ x ++ ": " ++ msg],
        visited := setAdd s.visited x } := by
    rw [walkF, if_neg (by tauto), if_neg (Nat.not_lt.mpr hdep)]
    simp only [hcopy, Option.map_some']
    congr 1
    simp [erase_append_singleton hxp]
  refine ⟨hmain, fun rest => ?_⟩
  rw [List.foldl_cons]
  simp only [Option.bind_eq_bind, Option.some_bind, hmain]

/-- C4 amended witness: the failure equation at a concrete input. -/
theorem copy_failure_witness :
    walkF ⟨linksLine, copyFailA, 5⟩ 1 "a" 0 initSt =
      some { initSt with
        errors := ["Error processing a: boom"],
        visited := ["a"] } := by
  exact (copy_failure_records_error_and_visits ⟨linksLine, copyFailA, 5⟩ 0
    "a" 0 initSt "boom" (by decide) (by decide) (by decide) (by decide)).1.trans
    (by decide)

theorem walkF_guard_eq (env : WalkEnv) (fuel : Nat) (x : String)
    (depth : Nat) (s : WalkSt) (h : x ∈ s.visited ∨ x ∈ s.processing) :
    walkF env (fuel + 1) x depth s = some s := by
  rw [walkF, if_pos h]

theorem walkF_skip_eq (env : WalkEnv) (fuel : Nat) (x : String)
    (depth : Nat) (s : WalkSt)
    (h : ¬ (x ∈ s.visited ∨ x ∈ s.processing))
    (hlt : env.maxDepth < depth) :
    walkF env (fuel + 1) x depth s =
      some { s with skipped := setAdd s.skipped x,
                    skipEvents := s.skipEvents ++ [(x, depth)] } := by
  rw [walkF, if_neg h, if_pos hlt]

theorem walkF_fail_eq (env : WalkEnv) (fuel : Nat) (x : String)
    (depth : Nat) (s : WalkSt) (msg : String)
    (h : ¬ (x ∈ s.visited ∨ x ∈ s.processing))
    (hdep : ¬ env.maxDepth < depth) (hcopy : env.copy x = some msg) :
    walkF env (fuel + 1) x depth s =
      some { s with
        errors := s.errors ++ ["Error processing " ++ x ++ ": " ++ msg],
        visited := setAdd s.visited x } := by
  rw [walkF, if_neg h, if_neg hdep]
  simp only [hcopy, Option.map_some']
  congr 1
  have hxp : x ∉ s.processing := fun hx => h (Or.inr hx)
  simp [erase_append_singleton hxp]

theorem walkF_ok_eq (env : WalkEnv) (fuel : Nat) (x : String)
    (depth : Nat) (s : WalkSt)
    (h : ¬ (x ∈ s.visited ∨ x ∈ s.processing))
    (hdep : ¬ env.maxDepth < depth) (hcopy : env.copy x = none) :
    walkF env (fuel + 1) x depth s =
      ((env.links x).foldl
        (fun acc c => acc.bind (walkF env fuel c (depth + 1)))
        (some { s with processing := s.processing ++ [x],
                       published := setAdd s.published x,
                       copies := s.copies ++ [x] })).map
        (fun t => { t with processing := t.processing.erase x,
                           visited := setAdd t.visited x }) := by
  rw [walkF, if_neg h, if_neg hdep]
  simp only [hcopy]

theorem walkEvolves_refl (M : Nat) (s : WalkSt) : WalkEvolves M s s := by
  refine ⟨rfl, fun p hp => hp, fun p hp => hp, fun h => h, ⟨[], by simp, by simp, ?_⟩, fun h => h⟩
  intro p
  simp

theorem walkEvolves_trans {M : Nat} {s t u : WalkSt}
    (h1 : WalkEvolves M s t) (h2 : WalkEvolves M t u) : WalkEvolves M s u := by
  obtain ⟨p1, v1, b1, n1, ⟨ev1, e1, eb1, es1⟩, c1⟩ := h1
  obtain ⟨p2, v2, b2, n2, ⟨ev2, e2, eb2, es2⟩, c2⟩ := h2
  refine ⟨p2.trans p1, fun p hp => v2 p (v1 p hp), fun p hp => b2 p (b1 p hp),
    fun h => n2 (n1 h), ⟨ev1 ++ ev2, ?_, ?_, ?_⟩, fun h => c2 (c1 h)⟩
  · rw [e2, e1, List.append_assoc]
  · intro q hq
    rcases List.mem_append.mp hq with hq | hq
    · exact eb1 q hq
    · exact eb2 q hq
  · intro p
    rw [es2 p]
    constructor
    · rintro (ht | ⟨d, hd⟩)
      · rcases (es1 p).mp ht with hs | ⟨d, hd⟩
        · exact Or.inl hs
        · exact Or.inr ⟨d, List.mem_append.mpr (Or.inl hd)⟩
      · exact Or.inr ⟨d, List.mem_append.mpr (Or.inr hd)⟩
    · rintro (hs | ⟨d, hd⟩)
      · exact Or.inl ((es1 p).mpr (Or.inl hs))
      · rcases List.mem_append.mp hd with hd | hd
        · exact Or.inl ((es1 p).mpr (Or.inr ⟨d, hd⟩))
        · exact Or.inr ⟨d, hd⟩

theorem foldl_walk_none (env : WalkEnv) (fuel depth : Nat)
    (xs : List String) :
    xs.foldl (fun acc c => acc.bind (walkF env fuel c depth)) none = none := by
  induction xs with
  | nil => rfl
  | cons x xs ih => simpa using ih

theorem walk_evolves (env : WalkEnv) :
    ∀ (fuel : Nat) (x : String) (depth : Nat) (s t : WalkSt),
      walkF env fuel x depth s = some t → WalkEvolves env.maxDepth s t := by
  intro fuel
  induction fuel with
  | zero =>
    intro x depth s t h
    exact absurd h (by simp [walkF])
  | succ f ih =>
    have ihList : ∀ (xs : List String) (depth : Nat) (s t : WalkSt),
        xs.foldl (fun acc c => acc.bind (walkF env f c depth)) (some s) =
          some t →
        WalkEvolves env.maxDepth s t := by
      intro xs
      induction xs with
      | nil =>
        intro depth s t h
        obtain rfl : s = t := Option.some.inj h
        exact walkEvolves_refl _ _
      | cons c rest ihl =>
        intro depth s t h
        rw [List.foldl_cons] at h
        cases hc : walkF env f c depth s with
        | none =>
          rw [show ((some s).bind (walkF env f c depth)) = none by
            simp [hc]] at h
          rw [foldl_walk_none] at h
          exact absurd h (by simp)
        | some smid =>
          simp only [Option.bind_eq_bind, Option.some_bind, hc] at h
          exact walkEvolves_trans (ih c depth s smid hc) (ihl depth smid t h)
    intro x depth s t h
    by_cases hg : x ∈ s.visited ∨ x ∈ s.processing
    · rw [walkF_guard_eq env f x depth s hg] at h
      obtain rfl : s = t := Option.some.inj h
      exact walkEvolves_refl _ _
    · by_cases hlt : env.maxDepth < depth
      · rw [walkF_skip_eq env f x depth s hg hlt] at h
        obtain rfl := (Option.some.inj h).symm
        refine ⟨rfl, fun p hp => hp, fun p hp => hp, fun hn => hn,
          ⟨[(x, depth)], rfl, ?_, ?_⟩, fun hcp => hcp⟩
        · intro q hq
          rw [List.mem_singleton] at hq
          subst hq
          exact hlt
        · intro p
          simp only [mem_setAdd, List.mem_singleton, Prod.mk.injEq]
          constructor
          · rintro (hp | rfl)
            · exact Or.inl hp
            · exact Or.inr ⟨depth, rfl, rfl⟩
          · rintro (hp | ⟨d, rfl, rfl⟩)
            · exact Or.inl hp
            · exact Or.inr rfl
      · cases hcopy : env.copy x with
        | some msg =>
          rw [walkF_fail_eq env f x depth s msg hg hlt hcopy] at h
          obtain rfl := (Option.some.inj h).symm
          refine ⟨rfl, fun p hp => mem_setAdd.mpr (Or.inl hp),
            fun p hp => hp, fun hn => hn,
            ⟨[], by simp, by simp, fun p => by simp⟩, ?_⟩
          rintro ⟨hnd, hsub⟩
          refine ⟨hnd, fun p hp => ?_⟩
          rcases hsub p hp with hv | hpp
          · exact Or.inl (mem_setAdd.mpr (Or.inl hv))
          · exact Or.inr hpp
        | none =>
          rw [walkF_ok_eq env f x depth s hg hlt hcopy] at h
          have hxp : x ∉ s.processing := fun hx => hg (Or.inr hx)
          have hxv : x ∉ s.visited := fun hx => hg (Or.inl hx)
          cases hfold : (env.links x).foldl
              (fun acc c => acc.bind (walkF env f c (depth + 1)))
              (some { s with processing := s.processing ++ [x],
                             published := setAdd s.published x,
                             copies := s.copies ++ [x] }) with
          | none =>
            rw [hfold] at h
            exact absurd h (by simp)
          | some u =>
            rw [hfold] at h
            simp only [Option.map_some'] at h
            obtain rfl := (Option.some.inj h).symm
            obtain ⟨pE, vE, bE, nE, ⟨ev, eE, ebE, esE⟩, cE⟩ :=
              ihList (env.links x) (depth + 1) _ u hfold
            have hproc : u.processing.erase x = s.processing := by
              rw [pE]
              exact erase_append_singleton hxp
            refine ⟨hproc, ?_, ?_, ?_, ⟨ev, ?_, ebE, ?_⟩, ?_⟩
            · intro p hp
              exact mem_setAdd.mpr (Or.inl (vE p hp))
            · intro p hp
              exact bE p (mem_setAdd.mpr (Or.inl hp))
            · intro hn
              exact nE (nodup_setAdd hn)
            · exact eE
            · exact esE
            · rintro ⟨hnd, hsub⟩
              have hxc : x ∉ s.copies := by
                intro hx
                rcases hsub x hx with hv | hp
                · exact hxv hv
                · exact hxp hp
              have hs2 : (s.copies ++ [x]).Nodup ∧
                  ∀ p ∈ s.copies ++ [x],
                    p ∈ s.visited ∨ p ∈ s.processing ++ [x] := by
                constructor
                · rw [List.nodup_append]
                  refine ⟨hnd, List.nodup_singleton x, ?_⟩
                  intro a ha hax
                  rw [List.mem_singleton] at hax
                  exact hxc (hax ▸ ha)
                · intro p hp
                  rcases List.mem_append.mp hp with hp | hp
                  · rcases hsub p hp with hv | hpr
                    · exact Or.inl hv
                    · exact Or.inr (List.mem_append.mpr (Or.inl hpr))
                  · exact Or.inr (List.mem_append.mpr (Or.inr hp))
              obtain ⟨und, usub⟩ := cE hs2
              refine ⟨und, fun p hp => ?_⟩
              rcases usub p hp with hv | hpr
              · exact Or.inl (mem_setAdd.mpr (Or.inl hv))
              · rw [pE] at hpr
                rcases List.mem_append.mp hpr with hpr | hpr
                · exact Or.inr (hproc ▸ hpr)
                · rw [List.mem_singleton] at hpr
                  exact Or.inl (mem_setAdd.mpr (Or.inr hpr))

theorem walk_total (env : WalkEnv) :
    ∀ (fuel : Nat) (x : String) (depth : Nat) (s : WalkSt),
      1 ≤ fuel →
      (env.maxDepth + 2 ≤ fuel + depth ∨ env.maxDepth < depth) →
      (walkF env fuel x depth s).isSome = true := by
  intro fuel
  induction fuel with
  | zero =>
    intro x depth s h1 _
    exact absurd h1 (by omega)
  | succ f ih =>
    intro x depth s _ hcond
    by_cases hg : x ∈ s.visited ∨ x ∈ s.processing
    · rw [walkF_guard_eq env f x depth s hg]; rfl
    · by_cases hlt : env.maxDepth < depth
      · rw [walkF_skip_eq env f x depth s hg hlt]; rfl
      · have hbound : env.maxDepth + 2 ≤ f + 1 + depth := by
          rcases hcond with hc | hc
          · exact hc
          · exact absurd hc hlt
        have hdep : depth ≤ env.maxDepth := Nat.not_lt.mp hlt
        cases hcopy : env.copy x with
        | some msg =>
          rw [walkF_fail_eq env f x depth s msg hg hlt hcopy]; rfl
        | none =>
          rw [walkF_ok_eq env f x depth s hg hlt hcopy]
          have hchild : ∀ (c : String) (s0 : WalkSt),
              (walkF env f c (depth + 1) s0).isSome = true := by
            intro c s0
            refine ih c (depth + 1) s0 (by omega) (Or.inl (by omega))
          have hfoldSome : ∀ (xs : List String) (s0 : WalkSt),
              (xs.foldl (fun acc c => acc.bind (walkF env f c (depth + 1)))
                (some s0)).isSome = true := by
            intro xs
            induction xs with
            | nil => intro s0; rfl
            | cons c rest ihr =>
              intro s0
              rw [List.foldl_cons]
              cases hc : walkF env f c (depth + 1) s0 with
              | none => exact absurd (hchild c s0) (by rw [hc]; simp)
              | some smid =>
                simp only [Option.bind_eq_bind, Option.some_bind, hc]
                exact ihr smid
          obtain ⟨u, hu⟩ := Option.isSome_iff_exists.mp
            (hfoldSome (env.links x) _)
          rw [hu]
          rfl

/-- C2: for every link graph (cycles included), the walk started at the
root with the shared `visited`/`processing` sets terminates — any fuel of
at least `maxDepth + 2` recursion levels returns a result — and in the
final state both the materialisation log and `publishedFiles` are
duplicate-free: no path is ever materialised twice, and each path is added
to `publishedFiles` at most once, within one top-level publish call. -/
theorem walk_terminates_and_never_materializes_twice (env : WalkEnv)
    (fuel : Nat) (root : String) (hfuel : env.maxDepth + 2 ≤ fuel) :
    (walkF env fuel root 0 initSt).isSome = true ∧
    (resultOr (walkF env fuel root 0 initSt)).copies.Nodup ∧
    (resultOr (walkF env fuel root 0 initSt)).published.Nodup := by
  have hs := walk_total env fuel root 0 initSt (by omega)
    (Or.inl (by omega))
  obtain ⟨t, ht⟩ := Option.isSome_iff_exists.mp hs
  obtain ⟨_, _, _, nE, _, cE⟩ := walk_evolves env fuel root 0 initSt t ht
  have hc := cE ⟨by simp [initSt], by simp [initSt]⟩
  refine ⟨hs, ?_, ?_⟩
  · rw [ht]
    exact hc.1
  · rw [ht]
    exact nE (by simp [initSt])

/-- C2 witness: the cyclic graph `r → a → r` (with side branch `a → b`)
at bound `1` and fuel `3 = maxDepth + 2`. -/
theorem walk_terminates_witness :
    (WalkEnv.mk linksCyc copyOkF 1).maxDepth + 2 ≤ 3 ∧
    ((walkF ⟨linksCyc, copyOkF, 1⟩ 3 "r" 0 initSt).isSome = true ∧
      (resultOr (walkF ⟨linksCyc, copyOkF, 1⟩ 3 "r" 0 initSt)).copies.Nodup ∧
      (resultOr (walkF ⟨linksCyc, copyOkF, 1⟩ 3 "r" 0
        initSt)).published.Nodup) := by
  exact ⟨by decide,
    walk_terminates_and_never_materializes_twice ⟨linksCyc, copyOkF, 1⟩ 3 "r"
      (by decide)⟩

theorem walk_evolves_fold (env : WalkEnv) (fuel depth : Nat) :
    ∀ (xs : List String) (s t : WalkSt),
      xs.foldl (fun acc c => acc.bind (walkF env fuel c depth)) (some s) =
        some t →
      WalkEvolves env.maxDepth s t := by
  intro xs
  induction xs with
  | nil =>
    intro s t h
    obtain rfl : s = t := Option.some.inj h
    exact walkEvolves_refl _ _
  | cons c rest ih =>
    intro s t h
    rw [List.foldl_cons] at h
    cases hc : walkF env fuel c depth s with
    | none =>
      rw [show ((some s).bind (walkF env fuel c depth)) = none by
        simp [hc]] at h
      rw [foldl_walk_none] at h
      exact absurd h (by simp)
    | some smid =>
      simp only [Option.bind_eq_bind, Option.some_bind, hc] at h
      exact walkEvolves_trans (walk_evolves env fuel c depth s smid hc)
        (ih smid t h)

/-- C5: a fresh node reached at depth exactly `maxDepth` is materialised
(it lands in `publishedFiles` when its copy succeeds); a fresh node
reached at depth exactly `maxDepth + 1` only has its path recorded in
`skippedFiles` (with a skip event at that depth) and nothing else in the
state changes — in particular it is not materialised; a node dropped by
the cycle/duplicate guard leaves the state completely unchanged (nothing
is recorded); and from a clean start every path in `skippedFiles` carries
a skip event whose depth strictly exceeds `maxDepth` — `skippedFiles`
holds only depth-overflow paths, never exclusion or cycle drops. -/
theorem depth_boundary_semantics :
    (∀ (env : WalkEnv) (fuel : Nat) (x : String) (s t : WalkSt),
      ¬ (x ∈ s.visited ∨ x ∈ s.processing) → env.copy x = none →
      walkF env (fuel + 1) x env.maxDepth s = some t →
      x ∈ t.published) ∧
    (∀ (env : WalkEnv) (fuel : Nat) (x : String) (s : WalkSt),
      ¬ (x ∈ s.visited ∨ x ∈ s.processing) →
      walkF env (fuel + 1) x (env.maxDepth + 1) s =
        some { s with
          skipped := setAdd s.skipped x,
          skipEvents := s.skipEvents ++ [(x, env.maxDepth + 1)] }) ∧
    (∀ (env : WalkEnv) (fuel : Nat) (x : String) (depth : Nat)
        (s : WalkSt),
      x ∈ s.visited ∨ x ∈ s.processing →
      walkF env (fuel + 1) x depth s = some s) ∧
    (∀ (env : WalkEnv) (fuel : Nat) (root : String) (t : WalkSt),
      walkF env fuel root 0 initSt = some t →
      ∀ p ∈ t.skipped, ∃ d, env.maxDepth < d ∧ (p, d) ∈ t.skipEvents) := by
  refine ⟨?_, ?_, ?_, ?_⟩
  · intro env fuel x s t hg hcopy h
    rw [walkF_ok_eq env fuel x env.maxDepth s hg (by omega) hcopy] at h
    cases hfold : (env.links x).foldl
        (fun acc c => acc.bind (walkF env fuel c (env.maxDepth + 1)))
        (some { s with processing := s.processing ++ [x],
                       published := setAdd s.published x,
                       copies := s.copies ++ [x] }) with
    | none =>
      rw [hfold] at h
      exact absurd h (by simp)
    | some u =>
      rw [hfold] at h
      simp only [Option.map_some'] at h
      obtain rfl := (Option.some.inj h).symm
      obtain ⟨_, _, bE, _, _, _⟩ :=
        walk_evolves_fold env fuel (env.maxDepth + 1) (env.links x) _ u hfold
      exact bE x (mem_setAdd.mpr (Or.inr rfl))
  · intro env fuel x s hg
    exact walkF_skip_eq env fuel x (env.maxDepth + 1) s hg (by omega)
  · intro env fuel x depth s hg
    exact walkF_guard_eq env fuel x depth s hg
  · intro env fuel root t h
    obtain ⟨_, _, _, _, ⟨ev, eE, ebE, esE⟩, _⟩ :=
      walk_evolves env fuel root 0 initSt t h
    intro p hp
    rcases (esE p).mp hp with hinit | ⟨d, hd⟩
    · exact absurd hinit (by simp [initSt])
    · exact ⟨d, ebE (p, d) hd, by rw [eE]; exact List.mem_append.mpr (Or.inr hd)⟩

/-- C5 witness: with the line graph and bound `1`, a fresh node at depth
`1 = maxDepth` is published, a fresh node at depth `2 = maxDepth + 1` is
exactly skip-recorded, and a guard-dropped node leaves the state
untouched. -/
theorem depth_boundary_witness :
    "a" ∈ (resultOr (walkF ⟨linksLine, copyOkF, 1⟩ 2 "a" 1
      ⟨[], [], [], [], ["r"], [], []⟩)).published ∧
    walkF ⟨linksLine, copyOkF, 1⟩ 2 "b" 2
        ⟨[], [], [], [], ["r", "a"], [], []⟩ =
      some ⟨[], ["b"], [], [], ["r", "a"], [], [("b", 2)]⟩ ∧
    walkF ⟨linksLine, copyOkF, 1⟩ 2 "r" 1
        ⟨[], [], [], ["r"], [], [], []⟩ =
      some ⟨[], [], [], ["r"], [], [], []⟩ := by
  refine ⟨?_, ?_, ?_⟩
  · exact depth_boundary_semantics.1 ⟨linksLine, copyOkF, 1⟩ 1 "a"
      ⟨[], [], [], [], ["r"], [], []⟩ _ (by decide) (by decide) (by decide)
  · exact (depth_boundary_semantics.2.1 ⟨linksLine, copyOkF, 1⟩ 1 "b"
      ⟨[], [], [], [], ["r", "a"], [], []⟩ (by decide)).trans (by decide)
  · exact depth_boundary_semantics.2.2.1 ⟨linksLine, copyOkF, 1⟩ 1 "r" 1
      ⟨[], [], [], ["r"], [], [], []⟩ (by decide)

theorem mem_foldl_step {links : String → List String} {p : String} :
    ∀ (l acc : List String),
      p ∈ l.foldl (fun acc x => (links x).foldl setAdd acc) acc ↔
      p ∈ acc ∨ ∃ x ∈ l, p ∈ links x := by
  intro l
  induction l with
  | nil => intro acc; simp
  | cons y l ih =>
    intro acc
    rw [List.foldl_cons, ih, mem_foldl_setAdd]
    simp only [List.mem_cons]
    constructor
    · rintro ((h | h) | ⟨x, hx, hpx⟩)
      · exact Or.inl h
      · exact Or.inr ⟨y, Or.inl rfl, h⟩
      · exact Or.inr ⟨x, Or.inr hx, hpx⟩
    · rintro (h | ⟨x, (rfl | hx), hpx⟩)
      · exact Or.inl (Or.inl h)
      · exact Or.inl (Or.inr hpx)
      · exact Or.inr ⟨x, hx, hpx⟩

theorem mem_stepClose {links : String → List String} {cur : List String}
    {p : String} :
    p ∈ stepClose links cur ↔ p ∈ cur ∨ ∃ x ∈ cur, p ∈ links x := by
  unfold stepClose
  exact mem_foldl_step cur cur

theorem reachWithin_succ_of_mem {links : String → List String}
    {root p : String} {n : Nat} (h : p ∈ reachWithin links root n) :
    p ∈ reachWithin links root (n + 1) := by
  rw [reachWithin]
  exact mem_stepClose.mpr (Or.inl h)

theorem reachWithin_mono {links : String → List String} {root p : String}
    {n m : Nat} (hnm : n ≤ m) (h : p ∈ reachWithin links root n) :
    p ∈ reachWithin links root m := by
  induction hnm with
  | refl => exact h
  | step _ ih => exact reachWithin_succ_of_mem ih

theorem reachWithin_step {links : String → List String} {root y p : String}
    {n : Nat} (hy : y ∈ reachWithin links root n) (hp : p ∈ links y) :
    p ∈ reachWithin links root (n + 1) := by
  rw [reachWithin]
  exact mem_stepClose.mpr (Or.inr ⟨y, hy, hp⟩)

theorem root_mem_reachWithin (links : String → List String) (root : String)
    (n : Nat) : root ∈ reachWithin links root n := by
  induction n with
  | zero => exact List.mem_singleton_self root
  | succ n ih => exact reachWithin_succ_of_mem ih

theorem chainTo_reach {links : String → List String} {root : String} :
    ∀ (l : List String) (y x : String) (n : Nat),
      chainTo links y l x → y ∈ reachWithin links root n →
      x ∈ reachWithin links root (n + l.length + 1) := by
  intro l
  induction l with
  | nil =>
    intro y x n hch hy
    exact reachWithin_step hy hch
  | cons z l ih =>
    intro y x n hch hy
    obtain ⟨hz, hch⟩ := hch
    have := ih z x (n + 1) hch (reachWithin_step hy hz)
    have heq : n + 1 + l.length + 1 = n + (z :: l).length + 1 := by
      simp [List.length_cons]
      omega
    rw [heq] at this
    exact this

theorem chainTo_snoc {links : String → List String} :
    ∀ (l : List String) (y x c : String),
      chainTo links y l x → c ∈ links x →
      chainTo links y (l ++ [x]) c := by
  intro l
  induction l with
  | nil =>
    intro y x c hch hc
    exact ⟨hch, hc⟩
  | cons z l ih =>
    intro y x c hch hc
    obtain ⟨hz, hch⟩ := hch
    exact ⟨hz, ih z x c hch hc⟩

theorem stackOk_reach {links : String → List String} {root : String} :
    ∀ (l : List String) (x : String), stackOk links root l x →
      x ∈ reachWithin links root l.length := by
  intro l x h
  cases l with
  | nil =>
    cases h
    exact List.mem_singleton_self root
  | cons y rest =>
    obtain ⟨rfl, hch⟩ := h
    have := chainTo_reach rest y x 0 hch (List.mem_singleton_self y)
    simpa [List.length_cons, Nat.add_comm] using this

theorem stackOk_extend {links : String → List String} {root : String}
    {l : List String} {x c : String} (h : stackOk links root l x)
    (hc : c ∈ links x) : stackOk links root (l ++ [x]) c := by
  cases l with
  | nil =>
    cases h
    exact ⟨rfl, hc⟩
  | cons y rest =>
    obtain ⟨rfl, hch⟩ := h
    exact ⟨rfl, chainTo_snoc rest y x c hch hc⟩

theorem noLongPath_chain {links : String → List String} :
    ∀ (l : List String) (b : Nat) (y x : String) (seen : List String),
      noLongPath links b y seen = true → chainTo links y l x →
      (x :: l).Nodup → x ∉ seen → (∀ e ∈ l, e ∉ seen) →
      l.length + 1 ≤ b := by
  intro l
  induction l with
  | nil =>
    intro b y x seen hnl hch _ hxs _
    cases b with
    | zero =>
      rw [noLongPath, List.all_eq_true] at hnl
      exact absurd (by simpa using hnl x hch) hxs
    | succ b => simp
  | cons z l ih =>
    intro b y x seen hnl hch hnd hxs hls
    obtain ⟨hz, hch⟩ := hch
    have hzs : z ∉ seen := hls z (List.mem_cons_self z l)
    cases b with
    | zero =>
      rw [noLongPath, List.all_eq_true] at hnl
      exact absurd (by simpa using hnl z hz) hzs
    | succ b =>
      rw [noLongPath, List.all_eq_true] at hnl
      have hrec : noLongPath links b z (z :: seen) = true := by
        have := hnl z hz
        simp only [List.elem_eq_mem, Bool.or_eq_true, decide_eq_true_eq] at this
        rcases this with h | h
        · exact absurd h hzs
        · exact h
      have hxz : x ≠ z := by
        intro heq
        have := List.Nodup.not_mem hnd
        exact this (heq ▸ List.mem_cons_self z l)
      have hznl : z ∉ l := (List.nodup_cons.mp (List.nodup_cons.mp hnd).2).1
      have hnd2 : (x :: l).Nodup := by
        rw [List.nodup_cons] at hnd ⊢
        refine ⟨fun hx => hnd.1 (List.mem_cons_of_mem z hx),
          (List.nodup_cons.mp hnd.2).2⟩
      have := ih b z x (z :: seen) hrec hch hnd2
        (by
          intro hx
          rcases List.mem_cons.mp hx with h | h
          · exact hxz h
          · exact hxs h)
        (by
          intro e he hein
          rcases List.mem_cons.mp hein with h | h
          · exact hznl (h ▸ he)
          · exact hls e (List.mem_cons_of_mem z he) h)
      simp only [List.length_cons]
      omega

theorem stack_depth_bound {links : String → List String} {root : String}
    {M : Nat} (hchk : noLongPath links M root [root] = true)
    {l : List String} {x : String} (hstk : stackOk links root l x)
    (hnd : l.Nodup) (hx : x ∉ l) : l.length ≤ M := by
  cases l with
  | nil => exact Nat.zero_le M
  | cons y rest =>
    obtain ⟨rfl, hch⟩ := hstk
    have hname : x ≠ y := fun h => hx (h ▸ List.mem_cons_self y rest)
    have hynr : y ∉ rest := (List.nodup_cons.mp hnd).1
    have := noLongPath_chain rest M y x [y] hchk hch
      (by
        rw [List.nodup_cons]
        exact ⟨fun h => hx (List.mem_cons_of_mem y h),
          (List.nodup_cons.mp hnd).2⟩)
      (by simpa using hname)
      (by
        intro e he hein
        rw [List.mem_singleton] at hein
        exact hynr (hein ▸ he))
    simpa using this

theorem walk_dfs_main (env : WalkEnv) (root : String)
    (hcopy : ∀ p, env.copy p = none)
    (hchk : noLongPath env.links env.maxDepth root [root] = true) :
    ∀ (fuel : Nat) (x : String) (depth : Nat) (s t : WalkSt),
      walkF env fuel x depth s = some t →
      GoodSt env.links root env.maxDepth s →
      stackOk env.links root s.processing x →
      depth = s.processing.length →
      GoodSt env.links root env.maxDepth t ∧ t.processing = s.processing ∧
        (∀ p ∈ s.visited, p ∈ t.visited) ∧
        (x ∈ t.visited ∨ x ∈ s.processing) := by
  intro fuel
  induction fuel with
  | zero =>
    intro x depth s t h _ _ _
    exact absurd h (by simp [walkF])
  | succ f ih =>
    have ihList : ∀ (xs : List String) (depth : Nat) (s t : WalkSt),
        xs.foldl (fun acc c => acc.bind (walkF env f c depth)) (some s) =
          some t →
        GoodSt env.links root env.maxDepth s →
        (∀ c ∈ xs, stackOk env.links root s.processing c) →
        depth = s.processing.length →
        GoodSt env.links root env.maxDepth t ∧ t.processing = s.processing ∧
          (∀ p ∈ s.visited, p ∈ t.visited) ∧
          (∀ c ∈ xs, c ∈ t.visited ∨ c ∈ s.processing) := by
      intro xs
      induction xs with
      | nil =>
        intro depth s t h hg _ _
        obtain rfl : s = t := Option.some.inj h
        exact ⟨hg, rfl, fun p hp => hp, by simp⟩
      | cons c rest ihl =>
        intro depth s t h hgood hstk hdep
        rw [List.foldl_cons] at h
        cases hc : walkF env f c depth s with
        | none =>
          rw [show ((some s).bind (walkF env f c depth)) = none by
            simp [hc]] at h
          rw [foldl_walk_none] at h
          exact absurd h (by simp)
        | some smid =>
          simp only [Option.bind_eq_bind, Option.some_bind, hc] at h
          obtain ⟨hgmid, hpmid, hvmid, hcin⟩ :=
            ih c depth s smid hc hgood (hstk c (List.mem_cons_self c rest))
              hdep
          obtain ⟨hgt, hpt, hvt, hrest⟩ := ihl depth smid t h hgmid
            (by rw [hpmid]
                exact fun d hd => hstk d (List.mem_cons_of_mem c hd))
            (by rw [hpmid]; exact hdep)
          refine ⟨hgt, hpt.trans hpmid, fun p hp => hvt p (hvmid p hp), ?_⟩
          intro d hd
          rcases List.mem_cons.mp hd with rfl | hd
          · rcases hcin with hcv | hcp
            · exact Or.inl (hvt d hcv)
            · exact Or.inr hcp
          · rcases hrest d hd with hv | hp
            · exact Or.inl hv
            · exact Or.inr (hpmid ▸ hp)
    intro x depth s t h hgood hstk hdep
    obtain ⟨hInv, hE, hVr, hPr, hNd⟩ := hgood
    by_cases hg : x ∈ s.visited ∨ x ∈ s.processing
    · rw [walkF_guard_eq env f x depth s hg] at h
      obtain rfl : s = t := Option.some.inj h
      refine ⟨⟨hInv, hE, hVr, hPr, hNd⟩, rfl, fun p hp => hp, ?_⟩
      rcases hg with hv | hp
      · exact Or.inl hv
      · exact Or.inr hp
    · have hxp : x ∉ s.processing := fun hx => hg (Or.inr hx)
      have hxv : x ∉ s.visited := fun hx => hg (Or.inl hx)
      have hdepM : depth ≤ env.maxDepth := by
        rw [hdep]
        exact stack_depth_bound hchk hstk hNd hxp
      have hlt : ¬ env.maxDepth < depth := Nat.not_lt.mpr hdepM
      rw [walkF_ok_eq env f x depth s hg hlt (hcopy x)] at h
      have hxreach : x ∈ reachWithin env.links root env.maxDepth :=
        reachWithin_mono (hdep ▸ hdepM) (stackOk_reach s.processing x hstk)
      cases hfold : (env.links x).foldl
          (fun acc c => acc.bind (walkF env f c (depth + 1)))
          (some { s with processing := s.processing ++ [x],
                         published := setAdd s.published x,
                         copies := s.copies ++ [x] }) with
      | none =>
        rw [hfold] at h
        exact absurd h (by simp)
      | some u =>
        rw [hfold] at h
        simp only [Option.map_some'] at h
        obtain rfl := (Option.some.inj h).symm
        have hgood2 : GoodSt env.links root env.maxDepth
            { s with processing := s.processing ++ [x],
                     published := setAdd s.published x,
                     copies := s.copies ++ [x] } := by
          refine ⟨?_, ?_, ?_, ?_, ?_⟩
          · intro p hp q hq
            rcases hInv p hp q hq with h1 | h1
            · exact Or.inl h1
            · exact Or.inr (List.mem_append.mpr (Or.inl h1))
          · intro p
            show p ∈ setAdd s.published x ↔
              p ∈ s.visited ∨ p ∈ s.processing ++ [x]
            rw [mem_setAdd, hE p]
            simp only [List.mem_append, List.mem_singleton]
            tauto
          · exact hVr
          · intro p hp
            rcases List.mem_append.mp hp with h1 | h1
            · exact hPr p h1
            · rw [List.mem_singleton] at h1
              exact h1 ▸ hxreach
          · show (s.processing ++ [x]).Nodup
            rw [List.nodup_append]
            refine ⟨hNd, List.nodup_singleton x, ?_⟩
            intro a ha hax
            exact hxp ((List.mem_singleton.mp hax) ▸ ha)
        obtain ⟨hgoodu, hproc_u, hvis_u, hchild⟩ := ihList (env.links x)
          (depth + 1) _ u hfold hgood2
          (by
            intro c hc
            show stackOk env.links root (s.processing ++ [x]) c
            exact stackOk_extend hstk hc)
          (by
            show depth + 1 = (s.processing ++ [x]).length
            rw [List.length_append, List.length_singleton, hdep])
        obtain ⟨uInv, uE, uVr, uPr, uNd⟩ := hgoodu
        have hproc_u' : u.processing = s.processing ++ [x] := hproc_u
        have hprocfin : u.processing.erase x = s.processing := by
          rw [hproc_u']
          exact erase_append_singleton hxp
        refine ⟨⟨?_, ?_, ?_, ?_, ?_⟩, hprocfin, ?_, ?_⟩
        · intro p hp q hq
          show q ∈ setAdd u.visited x ∨ q ∈ u.processing.erase x
          rcases mem_setAdd.mp hp with hpu | rfl
          · rcases uInv p hpu q hq with h1 | h1
            · exact Or.inl (mem_setAdd.mpr (Or.inl h1))
            · rw [hproc_u'] at h1
              rcases List.mem_append.mp h1 with h2 | h2
              · exact Or.inr (hprocfin.symm ▸ h2)
              · exact Or.inl (mem_setAdd.mpr (Or.inr (List.mem_singleton.mp h2)))
          · rcases hchild q hq with h1 | h1
            · exact Or.inl (mem_setAdd.mpr (Or.inl h1))
            · rcases List.mem_append.mp h1 with h2 | h2
              · exact Or.inr (hprocfin.symm ▸ h2)
              · exact Or.inl (mem_setAdd.mpr (Or.inr (List.mem_singleton.mp h2)))
        · intro p
          show p ∈ u.published ↔
            p ∈ setAdd u.visited x ∨ p ∈ u.processing.erase x
          rw [hprocfin, uE p, hproc_u']
          simp only [mem_setAdd, List.mem_append, List.mem_singleton]
          tauto
        · intro p hp
          rcases mem_setAdd.mp hp with h1 | rfl
          · exact uVr p h1
          · exact hxreach
        · intro p hp
          have hp2 : p ∈ s.processing := hprocfin ▸ hp
          exact hPr p hp2
        · show (u.processing.erase x).Nodup
          rw [hprocfin]
          exact hNd
        · intro p hp
          exact mem_setAdd.mpr (Or.inl (hvis_u p hp))
        · exact Or.inl (mem_setAdd.mpr (Or.inr rfl))

/-- C1 counterexample: the acyclic graph `r → a, b; a → b; b → c` with
`maxDepth = 2` and all copies succeeding.  `c` is reachable from `r`
within `2` steps (`r → b → c`), yet the walk publishes only `r, a, b`:
depth-first order reaches `b` first at depth `2` through `a`, so `b`'s
child `c` is cut off at depth `3`, and when `b` is met again at depth `1`
the visited-guard prevents re-expansion.  The claim's hypothesis holds —
every copy succeeds and the graph has no cycle at all (every simple path
from `r` has at most `3` edges) — but `publishedFiles` is not the
reachable-within-`maxDepth` set. -/
theorem depth_first_walk_misses_reachable_node :
    copyOkF = (fun _ => none) ∧
    noLongPath linksDiamond 3 "r" ["r"] = true ∧
    (resultOr (walkF ⟨linksDiamond, copyOkF, 2⟩ 10 "r" 0 initSt)).published =
      ["r", "a", "b"] ∧
    "c" ∈ reachWithin linksDiamond "r" 2 ∧
    "c" ∉ (resultOr (walkF ⟨linksDiamond, copyOkF, 2⟩ 10 "r" 0
      initSt)).published := by
  refine ⟨rfl, ?_, ?_, ?_, ?_⟩ <;> decide

theorem walk_reach_generic (env : WalkEnv)
    (root : String) (fuel : Nat)
    (hcopy : ∀ p, env.copy p = none)
    (hchk : noLongPath env.links env.maxDepth root [root] = true)
    (hfuel : env.maxDepth + 2 ≤ fuel) :
    (walkF env fuel root 0 initSt).isSome = true ∧
    (resultOr (walkF env fuel root 0 initSt)).published.toFinset =
      (reachWithin env.links root env.maxDepth).toFinset := by
  have hs := walk_total env fuel root 0 initSt (by omega) (Or.inl (by omega))
  obtain ⟨t, ht⟩ := Option.isSome_iff_exists.mp hs
  have hinit : GoodSt env.links root env.maxDepth initSt := by
    refine ⟨fun p hp => absurd hp (by simp [initSt]),
      fun p => by simp [initSt],
      fun p hp => absurd hp (by simp [initSt]),
      fun p hp => absurd hp (by simp [initSt]),
      by simp [initSt]⟩
  have hstk : stackOk env.links root initSt.processing root := rfl
  obtain ⟨⟨tInv, tE, tVr, tPr, tNd⟩, tproc, tvm, txv⟩ :=
    walk_dfs_main env root hcopy hchk fuel root 0 initSt t ht hinit hstk rfl
  have hprocnil : t.processing = [] := tproc
  have hrootvis : root ∈ t.visited := by
    rcases txv with h | h
    · exact h
    · exact absurd h (by simp [initSt])
  have hreach_sub : ∀ n, ∀ p ∈ reachWithin env.links root n,
      p ∈ t.visited := by
    intro n
    induction n with
    | zero =>
      intro p hp
      rw [reachWithin, List.mem_singleton] at hp
      exact hp ▸ hrootvis
    | succ n ihn =>
      intro p hp
      rw [reachWithin] at hp
      rcases mem_stepClose.mp hp with hp | ⟨y, hy, hpy⟩
      · exact ihn p hp
      · rcases tInv y (ihn y hy) p hpy with h1 | h1
        · exact h1
        · rw [hprocnil] at h1
          exact absurd h1 (by simp)
  refine ⟨hs, ?_⟩
  rw [ht]
  show t.published.toFinset = _
  ext p
  simp only [List.mem_toFinset]
  constructor
  · intro hp
    rcases (tE p).mp hp with h1 | h1
    · exact tVr p h1
    · rw [hprocnil] at h1
      exact absurd h1 (by simp)
  · intro hp
    exact (tE p).mpr (Or.inl (hreach_sub env.maxDepth p hp))

/-- C1 amended: when every simple path of the filtered link relation (the
links surviving the exclusion filter, resolution, the markdown check and
the Excalidraw drop, as produced by `getLinkedFiles`) out of the root has
at most `maxDepth` edges — so no cycle is reachable and the depth cutoff
never fires — and every per-node copy succeeds, the walk started at the
root with depth `0` terminates and `publishedFiles` equals, as a set, the
set of distinct document paths reachable from the root within `maxDepth`
link steps. -/
theorem walk_publishes_exactly_reachable_of_short_paths (lenv : LinkEnv)
    (copy : String → Option String) (M : Nat) (root : String) (fuel : Nat)
    (hcopy : ∀ p, copy p = none)
    (hchk : noLongPath (linksOfVault lenv) M root [root] = true)
    (hfuel : M + 2 ≤ fuel) :
    (walkF ⟨linksOfVault lenv, copy, M⟩ fuel root 0 initSt).isSome = true ∧
    (resultOr (walkF ⟨linksOfVault lenv, copy, M⟩ fuel root 0
        initSt)).published.toFinset =
      (reachWithin (linksOfVault lenv) root M).toFinset :=
  walk_reach_generic ⟨linksOfVault lenv, copy, M⟩ root fuel hcopy hchk hfuel

/-- C1 amended witness: a three-note vault whose filtered link relation is
the line `r.md → A.md → B.md`, published with `maxDepth = 2` (every simple
path has at most `2` edges) and all copies succeeding. -/
theorem walk_publishes_exactly_reachable_witness :
    (walkF ⟨linksOfVault lenvLine, copyOkF, 2⟩ 4 "r.md" 0
      initSt).isSome = true ∧
    (resultOr (walkF ⟨linksOfVault lenvLine, copyOkF, 2⟩ 4 "r.md" 0
        initSt)).published.toFinset =
      (reachWithin (linksOfVault lenvLine) "r.md" 2).toFinset :=
  walk_publishes_exactly_reachable_of_short_paths lenvLine copyOkF 2
    "r.md" 4 (fun _ => rfl) (by decide) (by decide)

theorem splitSlash_ne_nil (cs : List Char) : splitSlash cs ≠ [] := by
  cases cs with
  | nil => simp [splitSlash]
  | cons c rest =>
    rw [splitSlash]
    by_cases hc : c = '/'
    · simp [hc]
    · rw [if_neg hc]
      cases h : splitSlash rest with
      | nil => simp
      | cons s ss => simp

theorem splitSlash_no_slash (cs : List Char) :
    ∀ seg ∈ splitSlash cs, ∀ c ∈ seg, c ≠ '/' := by
  induction cs with
  | nil =>
    intro seg hseg c hc
    rw [splitSlash, List.mem_singleton] at hseg
    subst hseg
    exact absurd hc (by simp)
  | cons d rest ih =>
    intro seg hseg c hc
    rw [splitSlash] at hseg
    by_cases hd : d = '/'
    · rw [if_pos hd, List.mem_cons] at hseg
      rcases hseg with rfl | hseg
      · exact absurd hc (by simp)
      · exact ih seg hseg c hc
    · rw [if_neg hd] at hseg
      cases h : splitSlash rest with
      | nil => exact absurd h (splitSlash_ne_nil rest)
      | cons s ss =>
        rw [h, List.mem_cons] at hseg
        rcases hseg with rfl | hseg
        · rcases List.mem_cons.mp hc with rfl | hc2
          · exact hd
          · exact ih s (h ▸ List.mem_cons_self s ss) c hc2
        · exact ih seg (h ▸ List.mem_cons_of_mem s hseg) c hc

theorem splitSlash_append_noslash :
    ∀ (s r : List Char) (g : List Char) (gs : List (List Char)),
      (∀ c ∈ s, c ≠ '/') → splitSlash r = g :: gs →
      splitSlash (s ++ r) = (s ++ g) :: gs := by
  intro s
  induction s with
  | nil =>
    intro r g gs _ hr
    simpa using hr
  | cons c s ih =>
    intro r g gs hs hr
    have hc : c ≠ '/' := hs c (List.mem_cons_self c s)
    rw [List.cons_append, splitSlash, if_neg hc,
      ih r g gs (fun d hd => hs d (List.mem_cons_of_mem c hd)) hr]
    rfl

theorem splitSlash_joinSlash :
    ∀ (segs : List (List Char)), segs ≠ [] →
      (∀ seg ∈ segs, ∀ c ∈ seg, c ≠ '/') →
      splitSlash (joinSlash segs) = segs := by
  intro segs
  induction segs with
  | nil => intro h; exact absurd rfl h
  | cons s rest ih =>
    intro _ hfree
    cases rest with
    | nil =>
      show splitSlash (joinSlash [s]) = [s]
      rw [joinSlash]
      have : splitSlash ([] : List Char) = [] :: [] := rfl
      have h2 := splitSlash_append_noslash s [] [] []
        (hfree s (List.mem_cons_self s [])) this
      simpa using h2
    | cons t rest2 =>
      have hj : joinSlash (s :: t :: rest2) = s ++ '/' :: joinSlash (t :: rest2) := rfl
      rw [hj]
      have hrec : splitSlash (joinSlash (t :: rest2)) = t :: rest2 :=
        ih (by simp) (fun seg hseg => hfree seg (List.mem_cons_of_mem s hseg))
      have hslash : splitSlash ('/' :: joinSlash (t :: rest2)) =
          [] :: (t :: rest2) := by
        rw [splitSlash, if_pos rfl, hrec]
      have := splitSlash_append_noslash s ('/' :: joinSlash (t :: rest2))
        [] (t :: rest2) (hfree s (List.mem_cons_self s _)) hslash
      simpa using this

theorem replAndGen_succ (sp : Char → Bool) (fuel : Nat) (cs : List Char) :
    replAndGen sp (fuel + 1) cs =
      match cs.dropWhile sp with
      | [] =>
        match cs with
        | [] => []
        | c :: rest => c :: replAndGen sp fuel rest
      | a :: r2 =>
        if a = '&' then
          '-' :: '-' :: 'a' :: 'n' :: 'd' :: '-' :: '-' ::
            replAndGen sp fuel (r2.dropWhile sp)
        else
          match cs with
          | [] => []
          | c :: rest => c :: replAndGen sp fuel rest := rfl

theorem replAndGen_no_slash (sp : Char → Bool) :
    ∀ (fuel : Nat) (cs : List Char), (∀ c ∈ cs, c ≠ '/') →
      ∀ c ∈ replAndGen sp fuel cs, c ≠ '/' := by
  intro fuel
  induction fuel with
  | zero =>
    intro cs h c hc
    exact h c hc
  | succ f ih =>
    intro cs h c hc
    rw [replAndGen_succ] at hc
    split at hc
    next hw =>
      split at hc
      next => exact absurd hc (by simp)
      next d rest =>
        rcases List.mem_cons.mp hc with rfl | hc2
        · exact h c (List.mem_cons_self c rest)
        · exact ih rest (fun e he => h e (List.mem_cons_of_mem d he)) c hc2
    next a r2 heq =>
      by_cases ha : a = '&'
      · rw [if_pos ha] at hc
        have hr2sub : ∀ e ∈ r2.dropWhile sp, e ∈ cs := by
          intro e he
          have h1 : e ∈ r2 := (List.dropWhile_sublist _).subset he
          have h2 : e ∈ cs.dropWhile sp := by
            rw [heq]
            exact List.mem_cons_of_mem a h1
          exact (List.dropWhile_sublist _).subset h2
        simp only [List.mem_cons] at hc
        rcases hc with rfl | rfl | rfl | rfl | rfl | rfl | rfl | hc2
        · decide
        · decide
        · decide
        · decide
        · decide
        · decide
        · decide
        · exact ih (r2.dropWhile sp)
            (fun e he => h e (hr2sub e he)) c hc2
      · rw [if_neg ha] at hc
        split at hc
        next => exact absurd hc (by simp)
        next d rest =>
          rcases List.mem_cons.mp hc with rfl | hc2
          · exact h c (List.mem_cons_self c rest)
          · exact ih rest
              (fun e he => h e (List.mem_cons_of_mem d he)) c hc2

theorem replSpGo_no_slash :
    ∀ (cs : List Char) (b : Bool), (∀ c ∈ cs, c ≠ '/') →
      ∀ c ∈ replSpGo b cs, c ≠ '/' := by
  intro cs
  induction cs with
  | nil =>
    intro b _ c hc
    exact absurd hc (by simp [replSpGo])
  | cons d rest ih =>
    intro b h c hc
    rw [replSpGo] at hc
    by_cases hd : isJsSpace d
    · rw [if_pos hd] at hc
      rcases List.mem_append.mp hc with hc1 | hc2
      · cases b with
        | true => exact absurd hc1 (by simp)
        | false =>
          simp only [Bool.false_eq_true, if_false, List.mem_singleton] at hc1
          subst hc1
          decide
      · exact ih true (fun e he => h e (List.mem_cons_of_mem d he)) c hc2
    · rw [if_neg hd] at hc
      rcases List.mem_cons.mp hc with rfl | hc2
      · exact h c (List.mem_cons_self c rest)
      · exact ih false (fun e he => h e (List.mem_cons_of_mem d he)) c hc2

theorem segTransform_no_slash (seg : List Char)
    (h : ∀ c ∈ seg, c ≠ '/') : ∀ c ∈ segTransform seg, c ≠ '/' := by
  unfold segTransform replSp replAnd replAndF
  exact replSpGo_no_slash _ false
    (replAndGen_no_slash isJsSpace seg.length seg h)

/-- C6: `generatePublishedUrl` returns `none` exactly when no base URL is
configured; otherwise it implements the spec's description — take the
document's original source path (the target folder never enters), strip a
trailing `.md`, split on `/` once, in each segment replace
whitespace-surrounded ampersands by `--and--` and remaining whitespace
runs by hyphens, percent-encode each segment independently, rejoin with
`/`, and prefix `baseUrl + "/"`.  In particular the source path
`A & B/note name.md` with base URL `http://x` yields
`http://x/A--and--B/note-name`. -/
theorem generatePublishedUrl_spec :
    (∀ (baseUrl path : List Char),
      generatePublishedUrl baseUrl path = none ↔ baseUrl = []) ∧
    (∀ (baseUrl path : List Char), baseUrl ≠ [] →
      generatePublishedUrl baseUrl path =
        some (publicUrlSpec baseUrl path)) ∧
    generatePublishedUrl "http://x".data "A & B/note name.md".data =
      some "http://x/A--and--B/note-name".data := by
  have key : ∀ path : List Char,
      joinSlash ((splitSlash (joinSlash ((splitSlash (stripMd path)).map
          segTransform))).map encodeURIComponentChars) =
      joinSlash ((splitSlash (stripMd path)).map
        fun seg => encodeURIComponentChars (segTransform seg)) := by
    intro path
    have hne : (splitSlash (stripMd path)).map segTransform ≠ [] := by
      intro h
      rw [List.map_eq_nil_iff] at h
      exact splitSlash_ne_nil (stripMd path) h
    have hfree : ∀ seg ∈ (splitSlash (stripMd path)).map segTransform,
        ∀ c ∈ seg, c ≠ '/' := by
      intro seg hseg
      obtain ⟨s0, hs0, rfl⟩ := List.mem_map.mp hseg
      exact segTransform_no_slash s0
        (splitSlash_no_slash (stripMd path) s0 hs0)
    rw [splitSlash_joinSlash _ hne hfree, List.map_map]
    rfl
  refine ⟨?_, ?_, ?_⟩
  · intro baseUrl path
    unfold generatePublishedUrl
    by_cases h : baseUrl = [] <;> simp [h]
  · intro baseUrl path h
    show (if baseUrl = [] then none else _) = _
    rw [if_neg h]
    unfold publicUrlSpec
    exact congrArg some (congrArg (baseUrl ++ '/' :: ·) (key path))
  · decide

/-- C6 witness: the claim's concrete example, and the `none` case. -/
theorem generatePublishedUrl_witness :
    generatePublishedUrl "http://x".data "A & B/note name.md".data =
      some (publicUrlSpec "http://x".data "A & B/note name.md".data) ∧
    generatePublishedUrl [] "A & B/note name.md".data = none := by
  refine ⟨generatePublishedUrl_spec.2.1 _ _ (by decide),
    (generatePublishedUrl_spec.1 _ _).mpr rfl⟩

theorem takeWhile_append_stop (p : Char → Bool) :
    ∀ (l : List Char) (b : Char) (r : List Char),
      (∀ c ∈ l, p c = true) → p b = false →
      (l ++ b :: r).takeWhile p = l ∧ (l ++ b :: r).dropWhile p = b :: r := by
  intro l
  induction l with
  | nil =>
    intro b r _ hb
    constructor
    · rw [List.nil_append, List.takeWhile_cons, hb]
      simp
    · rw [List.nil_append, List.dropWhile_cons, hb]
      simp
  | cons c l ih =>
    intro b r hl hb
    have hc : p c = true := hl c (List.mem_cons_self c l)
    obtain ⟨h1, h2⟩ := ih b r (fun d hd => hl d (List.mem_cons_of_mem c hd)) hb
    constructor
    · rw [List.cons_append, List.takeWhile_cons, hc]
      simp [h1]
    · rw [List.cons_append, List.dropWhile_cons, hc]
      simp [h2]

theorem substDollar_cons_no_dollar (matched pre post : List Char)
    (c : Char) (rest : List Char) (hc : ¬c = '$') :
    substDollar matched pre post (c :: rest) =
      c :: substDollar matched pre post rest := by
  cases rest with
  | nil => rfl
  | cons d rest2 => rw [substDollar, if_neg hc]

theorem substDollar_no_dollar (matched pre post : List Char) :
    ∀ (repl : List Char), noDollar repl = true →
      substDollar matched pre post repl = repl := by
  intro repl
  induction repl with
  | nil =>
    intro _
    rfl
  | cons c rest ih =>
    intro h
    have h3 : (!decide (c = '$') && noDollar rest) = true := h
    rw [Bool.and_eq_true] at h3
    have hc : ¬c = '$' := by
      have h4 := h3.1
      rw [Bool.not_eq_true'] at h4
      exact of_decide_eq_false h4
    rw [substDollar_cons_no_dollar matched pre post c rest hc, ih h3.2]

theorem replaceFirstAux_acc (pat repl : List Char)
    (hnd : noDollar repl = true) :
    ∀ (cs acc1 acc2 : List Char),
      replaceFirstAux pat repl acc1 cs = replaceFirstAux pat repl acc2 cs := by
  intro cs
  induction cs with
  | nil =>
    intro acc1 acc2
    by_cases h : pat.isPrefixOf ([] : List Char) = true
    · rw [replaceFirstAux, replaceFirstAux, if_pos h, if_pos h,
        substDollar_no_dollar [] acc1.reverse [] repl hnd,
        substDollar_no_dollar [] acc2.reverse [] repl hnd]
    · rw [replaceFirstAux, replaceFirstAux, if_neg h, if_neg h]
  | cons c rest ih =>
    intro acc1 acc2
    by_cases h : pat.isPrefixOf (c :: rest) = true
    · rw [replaceFirstAux, replaceFirstAux, if_pos h, if_pos h,
        substDollar_no_dollar pat acc1.reverse ((c :: rest).drop pat.length)
          repl hnd,
        substDollar_no_dollar pat acc2.reverse ((c :: rest).drop pat.length)
          repl hnd]
    · rw [replaceFirstAux, replaceFirstAux, if_neg h, if_neg h,
        ih (c :: acc1) (c :: acc2)]

theorem replaceFirst_head_match (pat repl cs : List Char)
    (hnd : noDollar repl = true) (h : pat.isPrefixOf cs = true) :
    replaceFirst pat repl cs = repl ++ cs.drop pat.length := by
  cases cs with
  | nil =>
    show replaceFirstAux pat repl [] [] =
      repl ++ ([] : List Char).drop pat.length
    rw [replaceFirstAux, if_pos h,
      substDollar_no_dollar [] ([] : List Char).reverse [] repl hnd]
    simp
  | cons c rest =>
    show replaceFirstAux pat repl [] (c :: rest) =
      repl ++ (c :: rest).drop pat.length
    rw [replaceFirstAux, if_pos h,
      substDollar_no_dollar pat ([] : List Char).reverse
        ((c :: rest).drop pat.length) repl hnd]

theorem replaceFirst_at (pat repl suffix : List Char)
    (hnd : noDollar repl = true) :
    replaceFirst pat repl (pat ++ suffix) = repl ++ suffix := by
  rw [replaceFirst_head_match pat repl (pat ++ suffix) hnd
    (List.isPrefixOf_iff_prefix.mpr (List.prefix_append pat suffix))]
  rw [List.drop_left]

theorem replaceFirst_skip (pat repl : List Char)
    (hnd : noDollar repl = true) :
    ∀ (pre tail : List Char), noStartIn pre tail pat = true →
      replaceFirst pat repl (pre ++ tail) =
        pre ++ replaceFirst pat repl tail := by
  have haux : ∀ (pre tail acc : List Char), noStartIn pre tail pat = true →
      replaceFirstAux pat repl acc (pre ++ tail) =
        pre ++ replaceFirstAux pat repl [] tail := by
    intro pre
    induction pre with
    | nil =>
      intro tail acc _
      rw [List.nil_append, List.nil_append,
        replaceFirstAux_acc pat repl hnd tail acc []]
    | cons c pre2 ih =>
      intro tail acc h
      rw [noStartIn, Bool.and_eq_true, Bool.not_eq_true'] at h
      obtain ⟨h1, h2⟩ := h
      rw [List.cons_append, replaceFirstAux]
      rw [if_neg (by rw [h1]; exact Bool.false_ne_true)]
      rw [ih tail (c :: acc) h2]
      rfl
  intro pre tail h
  exact haux pre tail [] h

theorem matchCore_not_lbrack (c : Char) (rest : List Char) (hc : c ≠ '[') :
    matchCore (c :: rest) = none := by
  cases rest with
  | nil => rfl
  | cons c2 rest2 =>
    rw [matchCore, if_neg hc]

theorem matchCore_tok_none_disp (tgt tail : List Char) (h1 : tgt ≠ [])
    (h2 : ∀ c ∈ tgt, (!(c = ']' || c = '|')) = true) :
    matchCore ('[' :: '[' :: (tgt ++ ']' :: ']' :: tail)) =
      some (tgt, none, tail) := by
  obtain ⟨ht, hd⟩ := takeWhile_append_stop
    (fun c => !(c = ']' || c = '|')) tgt ']' (']' :: tail) h2 (by decide)
  simp only [matchCore, ht, hd, if_neg h1]
  simp

theorem matchCore_tok_some_disp (tgt d tail : List Char) (h1 : tgt ≠ [])
    (h2 : ∀ c ∈ tgt, (!(c = ']' || c = '|')) = true) (hd1 : d ≠ [])
    (hd2 : ∀ c ∈ d, (!(c = ']')) = true) :
    matchCore ('[' :: '[' :: (tgt ++ '|' :: (d ++ ']' :: ']' :: tail))) =
      some (tgt, some d, tail) := by
  obtain ⟨ht, hdw⟩ := takeWhile_append_stop
    (fun c => !(c = ']' || c = '|')) tgt '|' (d ++ ']' :: ']' :: tail) h2
    (by decide)
  obtain ⟨ht2, hdw2⟩ := takeWhile_append_stop
    (fun c => !(c = ']')) d ']' (']' :: tail) hd2 (by decide)
  simp only [matchCore, ht, hdw, if_neg h1]
  simp only [ht2, hdw2, if_neg hd1]
  simp

theorem scanToksF_plain (result : List WikiTok) :
    ∀ (s : List Char) (tail : List Char),
      (∀ c ∈ s, c ≠ '[' ∧ c ≠ '!') →
      (∀ n, tail.length ≤ n → scanToksF n tail = result) →
      ∀ n, (s ++ tail).length ≤ n → scanToksF n (s ++ tail) = result := by
  intro s
  induction s with
  | nil =>
    intro tail _ H n hn
    exact H n (by simpa using hn)
  | cons c s ih =>
    intro tail hs H n hn
    cases n with
    | zero =>
      exact absurd hn (by simp)
    | succ m =>
      rw [List.cons_append, scanToksF]
      have hc := hs c (List.mem_cons_self c s)
      rw [if_neg hc.2, matchCore_not_lbrack c (s ++ tail) hc.1]
      exact ih tail (fun d hd => hs d (List.mem_cons_of_mem c hd)) H m
        (by simpa using Nat.le_of_succ_le_succ hn)

theorem scanToksF_render :
    ∀ (chunks : List Chunk), wfChunksB chunks = true →
      ∀ n, (renderChunks chunks).length ≤ n →
      scanToksF n (renderChunks chunks) = toksOf chunks := by
  intro chunks
  induction chunks with
  | nil =>
    intro _ n _
    cases n <;> rfl
  | cons ch rest ih =>
    intro hwf n hn
    have hwf2 : wfChunk ch = true ∧ wfChunksB rest = true := by
      rw [wfChunksB, List.all_cons, Bool.and_eq_true] at hwf
      exact hwf
    cases ch with
    | plain s =>
      have hs : ∀ c ∈ s, c ≠ '[' ∧ c ≠ '!' := by
        have hws := hwf2.1
        rw [wfChunk, List.all_eq_true] at hws
        intro c hc
        have h := hws c hc
        simp only [Bool.not_eq_true', Bool.or_eq_false_iff,
          decide_eq_false_iff_not] at h
        exact h
      show scanToksF n (s ++ renderChunks rest) = toksOf rest
      exact scanToksF_plain (toksOf rest) s (renderChunks rest) hs
        (fun m hm => ih hwf2.2 m hm) n hn
    | tok t =>
      obtain ⟨bang, tgt, disp⟩ := t
      have hwft : wfTok ⟨bang, tgt, disp⟩ = true := hwf2.1
      rw [wfTok, Bool.and_eq_true, Bool.and_eq_true] at hwft
      obtain ⟨⟨hne0, hall0⟩, hdisp0⟩ := hwft
      have htne : tgt ≠ [] := by
        intro h
        subst h
        exact absurd hne0 (by simp)
      have hall : ∀ c ∈ tgt, (!(c = ']' || c = '|')) = true :=
        List.all_eq_true.mp hall0
      cases disp with
      | none =>
        cases bang with
        | true =>
          have hfull : renderChunks (Chunk.tok ⟨true, tgt, none⟩ :: rest) =
              '!' :: '[' :: '[' :: (tgt ++ ']' :: ']' ::
                renderChunks rest) := by
            show fullText ⟨true, tgt, none⟩ ++ renderChunks rest = _
            rw [fullText]
            simp [List.append_assoc]
          rw [hfull] at hn ⊢
          cases n with
          | zero => exact absurd hn (by simp)
          | succ m =>
            rw [scanToksF, if_pos rfl,
              matchCore_tok_none_disp tgt (renderChunks rest) htne hall]
            show WikiTok.mk true tgt none ::
              scanToksF m (renderChunks rest) = _
            rw [ih hwf2.2 m (by
              simp only [List.length_cons, List.length_append] at hn
              omega)]
            rfl
        | false =>
          have hfull : renderChunks (Chunk.tok ⟨false, tgt, none⟩ :: rest) =
              '[' :: '[' :: (tgt ++ ']' :: ']' :: renderChunks rest) := by
            show fullText ⟨false, tgt, none⟩ ++ renderChunks rest = _
            rw [fullText]
            simp [List.append_assoc]
          rw [hfull] at hn ⊢
          cases n with
          | zero => exact absurd hn (by simp)
          | succ m =>
            rw [scanToksF, if_neg (by decide : ¬ ('[' : Char) = '!'),
              matchCore_tok_none_disp tgt (renderChunks rest) htne hall]
            show WikiTok.mk false tgt none ::
              scanToksF m (renderChunks rest) = _
            rw [ih hwf2.2 m (by
              simp only [List.length_cons, List.length_append] at hn
              omega)]
            rfl
      | some d =>
        have hdne : d ≠ [] := by
          intro h
          subst h
          rw [Bool.and_eq_true] at hdisp0
          exact absurd hdisp0.1 (by simp)
        have hdall : ∀ c ∈ d, (!(c = ']')) = true := by
          rw [Bool.and_eq_true] at hdisp0
          exact List.all_eq_true.mp hdisp0.2
        cases bang with
        | true =>
          have hfull : renderChunks (Chunk.tok ⟨true, tgt, some d⟩ :: rest) =
              '!' :: '[' :: '[' :: (tgt ++ '|' ::
                (d ++ ']' :: ']' :: renderChunks rest)) := by
            show fullText ⟨true, tgt, some d⟩ ++ renderChunks rest = _
            rw [fullText]
            simp [List.append_assoc]
          rw [hfull] at hn ⊢
          cases n with
          | zero => exact absurd hn (by simp)
          | succ m =>
            rw [scanToksF, if_pos rfl,
              matchCore_tok_some_disp tgt d (renderChunks rest) htne hall
                hdne hdall]
            show WikiTok.mk true tgt (some d) ::
              scanToksF m (renderChunks rest) = _
            rw [ih hwf2.2 m (by
              simp only [List.length_cons, List.length_append] at hn
              omega)]
            rfl
        | false =>
          have hfull : renderChunks (Chunk.tok ⟨false, tgt, some d⟩ :: rest) =
              '[' :: '[' :: (tgt ++ '|' ::
                (d ++ ']' :: ']' :: renderChunks rest)) := by
            show fullText ⟨false, tgt, some d⟩ ++ renderChunks rest = _
            rw [fullText]
            simp [List.append_assoc]
          rw [hfull] at hn ⊢
          cases n with
          | zero => exact absurd hn (by simp)
          | succ m =>
            rw [scanToksF, if_neg (by decide : ¬ ('[' : Char) = '!'),
              matchCore_tok_some_disp tgt d (renderChunks rest) htne hall
                hdne hdall]
            show WikiTok.mk false tgt (some d) ::
              scanToksF m (renderChunks rest) = _
            rw [ih hwf2.2 m (by
              simp only [List.length_cons, List.length_append] at hn
              omega)]
            rfl

theorem processToks_tok (env : ExcEnv) (targetRoot : String) (fuel : Nat)
    (t : WikiTok) (rest : List WikiTok) (content : List Char)
    (st : ExcSt) :
    processToks env targetRoot fuel (t :: rest) content st =
      if isExcalidrawLink env (String.mk t.target) then
        match exportExcalidrawToImage env targetRoot fuel st
            (String.mk t.target) with
        | (some img, st1) =>
          processToks env targetRoot fuel rest
            (replaceFirst (fullText t) (imageLinkOf img t.display) content)
            st1
        | (none, st1) => processToks env targetRoot fuel rest content st1
      else processToks env targetRoot fuel rest content st := rfl

theorem processChunksSpec_tok (env : ExcEnv) (targetRoot : String)
    (fuel : Nat) (t : WikiTok) (rest : List Chunk) (done : List Char)
    (st : ExcSt) :
    processChunksSpec env targetRoot fuel (Chunk.tok t :: rest) done st =
      if isExcalidrawLink env (String.mk t.target) then
        match exportExcalidrawToImage env targetRoot fuel st
            (String.mk t.target) with
        | (some img, st1) =>
          ((processChunksSpec env targetRoot fuel rest
              (done ++ imageLinkOf img t.display) st1).1,
           (processChunksSpec env targetRoot fuel rest
              (done ++ imageLinkOf img t.display) st1).2.1,
           (noStartIn done (fullText t ++ renderChunks rest) (fullText t) &&
              noDollar (imageLinkOf img t.display)) &&
             (processChunksSpec env targetRoot fuel rest
                (done ++ imageLinkOf img t.display) st1).2.2)
        | (none, st1) =>
          processChunksSpec env targetRoot fuel rest (done ++ fullText t) st1
      else
        processChunksSpec env targetRoot fuel rest (done ++ fullText t)
          st := rfl

theorem processChunks_refine (env : ExcEnv) (targetRoot : String)
    (fuel : Nat) :
    ∀ (chunks : List Chunk) (done : List Char) (st : ExcSt),
      (processChunksSpec env targetRoot fuel chunks done st).2.2 = true →
      processToks env targetRoot fuel (toksOf chunks)
          (done ++ renderChunks chunks) st =
        ((processChunksSpec env targetRoot fuel chunks done st).1,
         (processChunksSpec env targetRoot fuel chunks done st).2.1) := by
  intro chunks
  induction chunks with
  | nil =>
    intro done st _
    show processToks env targetRoot fuel [] (done ++ []) st = (done, st)
    rw [List.append_nil]
    rfl
  | cons ch rest ih =>
    intro done st hok
    cases ch with
    | plain s =>
      show processToks env targetRoot fuel (toksOf rest)
          (done ++ (s ++ renderChunks rest)) st = _
      rw [← List.append_assoc]
      exact ih (done ++ s) st hok
    | tok t =>
      rw [show toksOf (Chunk.tok t :: rest) = t :: toksOf rest from rfl]
      rw [processToks_tok, processChunksSpec_tok]
      rw [processChunksSpec_tok] at hok
      cases hdr : isExcalidrawLink env (String.mk t.target) with
      | true =>
        rw [hdr] at hok
        cases hexp : exportExcalidrawToImage env targetRoot fuel st
            (String.mk t.target) with
        | mk imgOpt st1 =>
          rw [hexp] at hok
          cases imgOpt with
          | some img =>
            have hok2 : ((noStartIn done
                (fullText t ++ renderChunks rest) (fullText t) &&
                noDollar (imageLinkOf img t.display)) &&
                (processChunksSpec env targetRoot fuel rest
                  (done ++ imageLinkOf img t.display) st1).2.2) = true := hok
            rw [Bool.and_eq_true, Bool.and_eq_true] at hok2
            obtain ⟨⟨hns, hnd⟩, hflag⟩ := hok2
            have hgoal := ih (done ++ imageLinkOf img t.display) st1 hflag
            rw [List.append_assoc] at hgoal
            show processToks env targetRoot fuel (toksOf rest)
              (replaceFirst (fullText t) (imageLinkOf img t.display)
                (done ++ (fullText t ++ renderChunks rest))) st1 =
              ((processChunksSpec env targetRoot fuel rest
                  (done ++ imageLinkOf img t.display) st1).1,
               (processChunksSpec env targetRoot fuel rest
                  (done ++ imageLinkOf img t.display) st1).2.1)
            rw [replaceFirst_skip (fullText t) (imageLinkOf img t.display)
              hnd done (fullText t ++ renderChunks rest) hns]
            rw [replaceFirst_at (fullText t) (imageLinkOf img t.display)
              (renderChunks rest) hnd]
            exact hgoal
          | none =>
            have hgoal := ih (done ++ fullText t) st1 hok
            rw [List.append_assoc] at hgoal
            exact hgoal
      | false =>
        rw [hdr] at hok
        have hgoal := ih (done ++ fullText t) st hok
        rw [List.append_assoc] at hgoal
        exact hgoal

theorem findFreeIdx_spec (existing : List String) (folder base : String) :
    ∀ (fuel k0 k : Nat),
      findFreeIdx existing folder base fuel k0 = some k →
      k0 ≤ k ∧ (folder ++ "/" ++ candName base k) ∉ existing ∧
      ∀ j, k0 ≤ j → j < k →
        (folder ++ "/" ++ candName base j) ∈ existing := by
  intro fuel
  induction fuel with
  | zero =>
    intro k0 k h
    exact absurd h (by simp [findFreeIdx])
  | succ f ih =>
    intro k0 k h
    rw [findFreeIdx] at h
    by_cases hmem : folder ++ "/" ++ candName base k0 ∈ existing
    · rw [if_pos hmem] at h
      obtain ⟨h1, h2, h3⟩ := ih (k0 + 1) k h
      refine ⟨by omega, h2, fun j hj1 hj2 => ?_⟩
      by_cases hj : j = k0
      · exact hj ▸ hmem
      · exact h3 j (by omega) hj2
    · rw [if_neg hmem] at h
      obtain rfl : k0 = k := Option.some.inj h
      exact ⟨le_refl k0, hmem, fun j hj1 hj2 => absurd hj1 (by omega)⟩

theorem exportExcalidraw_ok (env : ExcEnv) (targetRoot : String)
    (fuel : Nat) (st : ExcSt) (fileName : String) (f : TFileM) (k : Nat)
    (hres : env.resolve fileName = some f)
    (hren : env.render f.path = true)
    (hfind : findFreeIdx
        (ensureImageFolderExists st.existing
          (if targetRoot ≠ "" then targetRoot ++ "/_Image" else "_Image"))
        (if targetRoot ≠ "" then targetRoot ++ "/_Image" else "_Image")
        f.basename fuel 0 = some k) :
    exportExcalidrawToImage env targetRoot fuel st fileName =
      (some (candName f.basename k),
       ⟨ensureImageFolderExists st.existing
            (if targetRoot ≠ "" then targetRoot ++ "/_Image" else "_Image") ++
          [(if targetRoot ≠ "" then targetRoot ++ "/_Image" else "_Image") ++
            "/" ++ candName f.basename k],
        st.createdImages ++
          [(if targetRoot ≠ "" then targetRoot ++ "/_Image" else "_Image") ++
            "/" ++ candName f.basename k]⟩) := by
  delta exportExcalidrawToImage
  simp only [hres]
  rw [if_pos hren]
  simp only [hfind]

/-- **C7 (amended).** The content rewrite pass of
`ExcalidrawUtil.processNoteContent`, under the two side conditions the
claim as stated omits (see `aliased_drawing_link_not_replaced` for the
aliasing failure): on structured content — an interleaving of link-free
plain runs and well-formed wikilink tokens — where no replacement's first
occurrence aliases earlier text and every replacement link is free of
`$` substitution patterns, every bracket-link token whose target
classifies as a drawing and whose export succeeds is replaced by an
image-embed link (`![[...]]` form regardless of whether the original was
plain or image-embed), preserving the original pipe-delimited display
text; links to non-drawing targets and drawing links whose export fails
are left character-for-character unmodified while the rest of the
content is still processed — this is the refinement of the source
scan-and-replace loop to the spec-side structural walk
`processChunksSpec`.  And `exportExcalidrawToImage` persists the image
flat under the `_Image` subfolder of the target root, named
`candName basename k` (`basename.png`, then `basename_1.png`,
`basename_2.png`, … on collision) for the least index `k` whose path does
not already exist, recording the created path in the vault state and the
`createdImages` log. -/
theorem processNoteContent_spec (env : ExcEnv) (targetRoot : String)
    (fuel : Nat) :
    (∀ (chunks : List Chunk) (st : ExcSt),
      wfChunksB chunks = true →
      (processChunksSpec env targetRoot fuel chunks [] st).2.2 = true →
      processNoteContent env targetRoot fuel (renderChunks chunks) st =
        ((processChunksSpec env targetRoot fuel chunks [] st).1,
         (processChunksSpec env targetRoot fuel chunks [] st).2.1)) ∧
    (∀ (st : ExcSt) (fileName : String) (f : TFileM) (k : Nat)
        (folder : String) (ex1 : List String),
      env.resolve fileName = some f →
      env.render f.path = true →
      folder = (if targetRoot ≠ "" then targetRoot ++ "/_Image" else "_Image") →
      ex1 = ensureImageFolderExists st.existing folder →
      findFreeIdx ex1 folder f.basename fuel 0 = some k →
      exportExcalidrawToImage env targetRoot fuel st fileName =
        (some (candName f.basename k),
         ⟨ex1 ++ [folder ++ "/" ++ candName f.basename k],
          st.createdImages ++ [folder ++ "/" ++ candName f.basename k]⟩) ∧
      folder ++ "/" ++ candName f.basename k ∉ ex1 ∧
      ∀ j, j < k → folder ++ "/" ++ candName f.basename j ∈ ex1) := by
  constructor
  · intro chunks st hwf hflag
    have hscan : scanToks (renderChunks chunks) = toksOf chunks :=
      scanToksF_render chunks hwf (renderChunks chunks).length le_rfl
    show processToks env targetRoot fuel (scanToks (renderChunks chunks))
        (renderChunks chunks) st = _
    rw [hscan]
    have h := processChunks_refine env targetRoot fuel chunks [] st hflag
    rw [List.nil_append] at h
    exact h
  · intro st fileName f k folder ex1 hres hren hfol hex hfind
    subst hfol
    subst hex
    obtain ⟨-, hnot, hall⟩ := findFreeIdx_spec _ _ _ fuel 0 k hfind
    exact ⟨exportExcalidraw_ok env targetRoot fuel st fileName f k hres hren
        hfind, hnot, fun j hj => hall j (Nat.zero_le j) hj⟩

/-- Witness for C7: on concrete content
` pre [[D|pic]] mid ![[D]] x [[B]]![[E]]` with target root `pub`, the two
successful drawing links become `![[D.png|pic]]` and `![[D_1.png]]` (the
second via the `_1` collision suffix), the note link `[[B]]` and the
failed drawing `![[E]]` stay unchanged, and the first export creates
`pub/_Image/D.png` (least free index 0) flat under the `_Image`
subfolder. -/
theorem processNoteContent_spec_witness :
    (wfChunksB chunksW = true ∧
     (processChunksSpec excEnvW "pub" 9 chunksW [] excStW).2.2 = true ∧
     processNoteContent excEnvW "pub" 9 (renderChunks chunksW) excStW =
       ((processChunksSpec excEnvW "pub" 9 chunksW [] excStW).1,
        (processChunksSpec excEnvW "pub" 9 chunksW [] excStW).2.1)) ∧
    (excEnvW.resolve "D" = some ⟨"D.md", "D", "md"⟩ ∧
     excEnvW.render "D.md" = true ∧
     findFreeIdx (ensureImageFolderExists excStW.existing "pub/_Image")
       "pub/_Image" "D" 9 0 = some 0 ∧
     exportExcalidrawToImage excEnvW "pub" 9 excStW "D" =
       (some (candName "D" 0),
        ⟨ensureImageFolderExists excStW.existing "pub/_Image" ++
           ["pub/_Image" ++ "/" ++ candName "D" 0],
         excStW.createdImages ++ ["pub/_Image" ++ "/" ++ candName "D" 0]⟩) ∧
     "pub/_Image" ++ "/" ++ candName "D" 0 ∉
       ensureImageFolderExists excStW.existing "pub/_Image" ∧
     ∀ j, j < 0 → "pub/_Image" ++ "/" ++ candName "D" j ∈
       ensureImageFolderExists excStW.existing "pub/_Image") :=
  ⟨⟨by decide, by decide,
    (processNoteContent_spec excEnvW "pub" 9).1 chunksW excStW (by decide)
      (by decide)⟩,
   by decide, by decide, by decide,
   (processNoteContent_spec excEnvW "pub" 9).2 excStW "D" ⟨"D.md", "D", "md"⟩
     0 "pub/_Image" (ensureImageFolderExists excStW.existing "pub/_Image")
     (by decide) (by decide) (by decide) rfl (by decide)⟩

/-- Counterexample to C7 as stated: on content `[[D]] [[D.png]]` where
both targets classify as drawings and both exports succeed at their point
in the loop, first-occurrence `String.replace` rewrites the occurrence of
`[[D.png]]` sitting inside the first replacement `![[D.png]]`, so the
second drawing token is left in the output unreplaced (still its plain
`[[D.png]]` form, not an image-embed link) and the first embed is
corrupted to `!![[Dp.png]]`. -/
theorem aliased_drawing_link_not_replaced :
    isExcalidrawLink excEnvAlias "D" = true ∧
    isExcalidrawLink excEnvAlias "D.png" = true ∧
    (exportExcalidrawToImage excEnvAlias "pub" 9 ⟨["pub"], []⟩ "D").1 =
      some "D.png" ∧
    (exportExcalidrawToImage excEnvAlias "pub" 9
      (exportExcalidrawToImage excEnvAlias "pub" 9 ⟨["pub"], []⟩ "D").2
      "D.png").1 = some "Dp.png" ∧
    processNoteContent excEnvAlias "pub" 9 ("[[D]] [[D.png]]").data
        ⟨["pub"], []⟩ =
      (("!![[Dp.png]] [[D.png]]").data,
       ⟨["pub", "pub/_Image", "pub/_Image/D.png", "pub/_Image/Dp.png"],
        ["pub/_Image/D.png", "pub/_Image/Dp.png"]⟩) :=
  ⟨by decide, by decide, by decide, by decide, by decide⟩
